import Mathlib

/-!
Verification of the RoboMeetServer signaling server.

The model below is a shallow embedding of the call-id signaling flow of
`src/unnamed/part_000` (the variant with `invite`/`accept`/`decline`,
pre-START buffering and ring resends).  Rooms are an association list
keyed by room name, each room holding a member set (modelled as an
insertion-ordered duplicate-free list, matching the iteration order of a
JS `Set`) and at most one active call.  Connections are identified by
natural numbers standing for the `ws` object identity; per-connection
metadata (`ws.meta`) is an association list with the default
`{ room:null, name:null }` installed on connection.  `randomUUID` is
modelled by a fresh-counter `nextId`, capturing exactly the freshness of
the generated call identifiers.  Timers (`setTimeout` handles) are
modelled by an `armed` flag on the per-call ring-timer entry; a timer
fire is a separate event that is a no-op unless the entry is armed.
Every server-side `send` is recorded as a `(destination, frame)` pair in
the output list of a step; the JS `send` additionally checks
`readyState === OPEN` before writing, which only affects delivery, not
what the server emits.
-/

namespace RoboMeet

/-- Connection identity: stands for the `ws` object of one client channel. -/
abbrev ConnId := Nat

/-- `ws.meta = { room, name }`, both nullable. -/
structure ConnMeta where
  room : Option String
  name : Option String
deriving DecidableEq, Repr

/-- Server-to-client frames, as built by the handlers of the call-id flow.
`peerLeft` and `leftF` belong to the protocol vocabulary of the sibling
prototypes in the repository; they are needed to state spec sentences about
them even though the call-id flow never emits them. -/
inductive SFrame where
  | roomState (room : String) (peers : List String)
  | inviteOk (call_id : Nat)
  | ring (call_id : Nat) (fromName : String)
  | ringing (call_id : Nat)
  | start (call_id : Nat) (role : String)
  | endF (call_id : Nat) (reason : String)
  | busy (reason : String)
  | errorF (msg : String)
  | offer (call_id : Nat) (sdp : String)
  | answer (call_id : Nat) (sdp : String)
  | ice (call_id : Nat) (candidate : String)
  | peerLeft (name : String)
  | leftF
deriving DecidableEq, Repr

/-- A buffered pre-START signaling frame: the normalized forward payload
together with the destination stored in its `__to` field. -/
structure PendItem where
  dest : ConnId
  frame : SFrame
deriving DecidableEq, Repr

/-- `roomObj.activeCall = { id, caller, callee, started, state, pending }`. -/
structure Call where
  id : Nat
  caller : ConnId
  callee : ConnId
  started : Bool
  state : String
  pending : List PendItem
deriving DecidableEq, Repr

/-- A room: `{ members:Set<ws>, activeCall }`. -/
structure Room where
  members : List ConnId
  activeCall : Option Call
deriving DecidableEq, Repr

/-- One entry of the `ringTimers` map: `{ tries, timer, roomKey }`; `armed`
models whether the stored `timer` is a live `setTimeout` handle. -/
structure RingEntry where
  tries : Nat
  roomKey : String
  armed : Bool
deriving DecidableEq, Repr

/-- Client-to-server frames dispatched on `msg.type`.  The `call_id` field of
a frame may be absent, hence `Option Nat`.  `unknownMsg` stands for every
other `type` value. -/
inductive CFrame where
  | join (room : Option String) (name : Option String)
  | invite
  | ringAck (call_id : Option Nat)
  | accept (call_id : Option Nat)
  | decline (call_id : Option Nat)
  | hangup (call_id : Option Nat)
  | offer (call_id : Option Nat) (sdp : String)
  | answer (call_id : Option Nat) (sdp : String)
  | ice (call_id : Option Nat) (candidate : String)
  | leaveRoom
  | unknownMsg
deriving DecidableEq, Repr

/-- The whole server state: the `rooms` map, per-connection `ws.meta`
records, the `ringTimers` map, and the freshness counter standing for
`randomUUID`. -/
structure ServerState where
  rooms : List (String × Room)
  metas : List (ConnId × ConnMeta)
  ringTimers : List (Nat × RingEntry)
  nextId : Nat
deriving DecidableEq, Repr

/-- `Map.get` on an association list. -/
def getA {α β : Type} [DecidableEq α] (k : α) : List (α × β) → Option β
  | [] => none
  | (k', v) :: rest => if k' = k then some v else getA k rest

/-- `Map.set` on an association list: overwrite the first binding of the key,
or append a new binding. -/
def updA {α β : Type} [DecidableEq α] (k : α) (v : β) : List (α × β) → List (α × β)
  | [] => [(k, v)]
  | (k', v') :: rest => if k' = k then (k, v) :: rest else (k', v') :: updA k v rest

/-- `Map.delete` on an association list. -/
def delA {α β : Type} [DecidableEq α] (k : α) : List (α × β) → List (α × β)
  | [] => []
  | (k', v) :: rest => if k' = k then delA k rest else (k', v) :: delA k rest

/-- JS truthiness of an optional string: `null`/`undefined` and `""` are falsy. -/
def truthy : Option String → Option String
  | none => none
  | some s => if s = "" then none else some s

/-- `String(x || d)` for an optional string field `x` and default `d`. -/
def strOr (o : Option String) (d : String) : String :=
  match truthy o with
  | none => d
  | some s => s

/-- `ws.meta`, defaulted to `{ room:null, name:null }` (installed by
`setMeta` on connection). -/
def getMeta (st : ServerState) (ws : ConnId) : ConnMeta :=
  (getA ws st.metas).getD { room := none, name := none }

/-- `Set.add`: append if not yet a member (JS sets iterate in insertion
order and ignore re-insertion). -/
def addMember (l : List ConnId) (ws : ConnId) : List ConnId :=
  if ws ∈ l then l else l ++ [ws]

/-- `RING_RETRY_MS = 800` — the resend interval in milliseconds. -/
def RING_RETRY_MS : Nat := 800

/-- `RING_RETRY_MAX = 6` — the bound on ring resends. -/
def RING_RETRY_MAX : Nat := 6

/-- `currentPeers(roomObj)`: display names of the members whose `meta.name`
is truthy, in member iteration order. -/
def currentPeers (st : ServerState) (r : Room) : List String :=
  r.members.filterMap (fun ws => truthy (getMeta st ws).name)

/-- `otherPeer(call, fromWs)`. -/
def otherPeer (call : Call) (fromWs : ConnId) : ConnId :=
  if fromWs = call.caller then call.callee else call.caller

/-- `scheduleRingResend(callId, roomKey)` acting on the `ringTimers` map:
clear any previous timer, stop once `tries` reached `RING_RETRY_MAX`,
otherwise bump `tries` and arm a new timer. -/
def scheduleRingResend (call_id : Nat) (roomKey : String)
    (timers : List (Nat × RingEntry)) : List (Nat × RingEntry) :=
  let e := (getA call_id timers).getD { tries := 0, roomKey := roomKey, armed := false }
  if RING_RETRY_MAX ≤ e.tries then
    updA call_id { e with armed := false } timers
  else
    updA call_id { tries := e.tries + 1, roomKey := e.roomKey, armed := true } timers

/-- `stopRingResend(callId)`: clear the timer and delete the entry. -/
def stopRingResend (call_id : Nat) (timers : List (Nat × RingEntry)) :
    List (Nat × RingEntry) :=
  delA call_id timers

/-- Output of a step: the `(destination, frame)` sends, in emission order. -/
abbrev Out := List (ConnId × SFrame)

/-- `clearActiveCall(roomObj, reason)`: stop the ring timer, send
`end{call_id, reason}` to every member, discard the pending queue, clear
the slot.  Returns the updated room, the updated timers and the sends. -/
def clearActiveCall (r : Room) (timers : List (Nat × RingEntry)) (reason : String) :
    Room × List (Nat × RingEntry) × Out :=
  match r.activeCall with
  | none => (r, timers, [])
  | some call =>
    ({ r with activeCall := none },
     stopRingResend call.id timers,
     r.members.map (fun ws => (ws, SFrame.endF call.id reason)))

/-- `leaveRoom(ws)`: remove the member; if it participated in the active
call, clear the call with reason `"left"`; delete the room when its member
set becomes empty.  The connection's `meta` is left untouched, and no
`peer-left` is broadcast (this flow has none). -/
def leaveRoom (st : ServerState) (ws : ConnId) : ServerState × Out :=
  match truthy (getMeta st ws).room with
  | none => (st, [])
  | some roomKey =>
    match getA roomKey st.rooms with
    | none => (st, [])
    | some r =>
      let r1 : Room := { r with members := r.members.filter (fun m => m ≠ ws) }
      let cleared : Room × List (Nat × RingEntry) × Out :=
        match r1.activeCall with
        | some call =>
          if ws = call.caller ∨ ws = call.callee then
            clearActiveCall r1 st.ringTimers "left"
          else (r1, st.ringTimers, [])
        | none => (r1, st.ringTimers, [])
      let r2 := cleared.1
      let rooms' :=
        if r2.members = [] then delA roomKey st.rooms else updA roomKey r2 st.rooms
      ({ st with rooms := rooms', ringTimers := cleared.2.1 }, cleared.2.2)

/-- The `offer`/`answer`/`ice` branch: drop on a stale `call_id`; forward to
the other participant when started, otherwise push the normalized forward
payload (tagged with its destination) onto the pending queue.  `mk` builds
the normalized forward payload from the active call's id, per message type. -/
def relayOrBuffer (st : ServerState) (roomKey : String) (r : Room) (ws : ConnId)
    (cid : Option Nat) (mk : Nat → SFrame) : ServerState × Out :=
  match r.activeCall with
  | none => (st, [])
  | some c =>
    if cid = some c.id then
      let dst := otherPeer c ws
      let fwd := mk c.id
      if c.started then (st, [(dst, fwd)])
      else
        let c1 := { c with pending := c.pending ++ [⟨dst, fwd⟩] }
        ({ st with rooms := updA roomKey { r with activeCall := some c1 } st.rooms }, [])
    else (st, [])

/-- The message handler of the call-id flow: dispatch on `msg.type`, with
the not-in-room gate guarding everything but `join`. -/
def handleMessage (st : ServerState) (ws : ConnId) (m : CFrame) : ServerState × Out :=
  match m with
  | .join room name =>
    let roomKey := strOr room "default"
    let r := (getA roomKey st.rooms).getD { members := [], activeCall := none }
    let st1 := { st with
      metas := updA ws { room := some roomKey, name := some (strOr name "peer") } st.metas }
    let r1 : Room := { r with members := addMember r.members ws }
    let st2 := { st1 with rooms := updA roomKey r1 st1.rooms }
    (st2, [(ws, SFrame.roomState roomKey (currentPeers st2 r1))])
  | _ =>
    match truthy (getMeta st ws).room with
    | none => (st, [(ws, SFrame.errorF "not in room")])
    | some roomKey =>
      match getA roomKey st.rooms with
      | none => (st, [(ws, SFrame.errorF "not in room")])
      | some r =>
        match m with
        | .invite =>
          match r.activeCall with
          | some _ => (st, [(ws, SFrame.busy "call-active")])
          | none =>
            match r.members.find? (fun x => x ≠ ws) with
            | none => (st, [(ws, SFrame.busy "no-peer")])
            | some callee =>
              let call_id := st.nextId
              let call : Call :=
                { id := call_id, caller := ws, callee := callee,
                  started := false, state := "RINGING", pending := [] }
              ({ st with
                  rooms := updA roomKey { r with activeCall := some call } st.rooms,
                  ringTimers := scheduleRingResend call_id roomKey st.ringTimers,
                  nextId := st.nextId + 1 },
               [(ws, SFrame.inviteOk call_id),
                (callee, SFrame.ring call_id (strOr (getMeta st ws).name "peer"))])
        | .ringAck cid =>
          match r.activeCall with
          | none => (st, [])
          | some c =>
            if cid = some c.id then
              ({ st with ringTimers := stopRingResend c.id st.ringTimers },
               [(c.caller, SFrame.ringing c.id)])
            else (st, [])
        | .accept cid =>
          match r.activeCall with
          | none => (st, [])
          | some c =>
            if cid = some c.id then
              let c1 := { c with state := "CONNECTING", started := true, pending := [] }
              ({ st with
                  rooms := updA roomKey { r with activeCall := some c1 } st.rooms,
                  ringTimers := stopRingResend c.id st.ringTimers },
               (c.caller, SFrame.start c.id "initiator") ::
               (c.callee, SFrame.start c.id "callee") ::
               c.pending.map (fun p => (p.dest, p.frame)))
            else (st, [])
        | .decline cid =>
          match r.activeCall with
          | none => (st, [])
          | some c =>
            if cid = some c.id then
              let cleared := clearActiveCall r st.ringTimers "declined"
              ({ st with rooms := updA roomKey cleared.1 st.rooms,
                         ringTimers := cleared.2.1 }, cleared.2.2)
            else (st, [])
        | .hangup cid =>
          match r.activeCall with
          | none => (st, [])
          | some c =>
            if cid = some c.id then
              let cleared := clearActiveCall r st.ringTimers "hangup"
              ({ st with rooms := updA roomKey cleared.1 st.rooms,
                         ringTimers := cleared.2.1 }, cleared.2.2)
            else (st, [])
        | .offer cid sdp => relayOrBuffer st roomKey r ws cid (fun i => SFrame.offer i sdp)
        | .answer cid sdp => relayOrBuffer st roomKey r ws cid (fun i => SFrame.answer i sdp)
        | .ice cid cand => relayOrBuffer st roomKey r ws cid (fun i => SFrame.ice i cand)
        | .leaveRoom => leaveRoom st ws
        | _ => (st, [(ws, SFrame.errorF "unknown message type")])

/-- The `setTimeout` callback of `scheduleRingResend`: consumes the armed
timer, re-checks that the room's active call still exists with the same id
and is not started, and only then re-sends `ring` to the callee and
reschedules. -/
def fireRing (st : ServerState) (call_id : Nat) : ServerState × Out :=
  match getA call_id st.ringTimers with
  | none => (st, [])
  | some e =>
    if e.armed then
      let timers1 := updA call_id { e with armed := false } st.ringTimers
      match getA e.roomKey st.rooms with
      | none => ({ st with ringTimers := timers1 }, [])
      | some r =>
        match r.activeCall with
        | none => ({ st with ringTimers := timers1 }, [])
        | some call =>
          if call.id = call_id ∧ call.started = false then
            ({ st with ringTimers := scheduleRingResend call_id e.roomKey timers1 },
             [(call.callee, SFrame.ring call.id (strOr (getMeta st call.caller).name "peer"))])
          else ({ st with ringTimers := timers1 }, [])
    else (st, [])

/-- External triggers: an inbound frame, a channel close/error (or
supervisor termination, which runs the same leave path), or a ring-timer
fire. -/
inductive Event where
  | msg (ws : ConnId) (m : CFrame)
  | disconnect (ws : ConnId)
  | timerFire (call_id : Nat)
deriving DecidableEq, Repr

/-- One serialized transition of the server. -/
def step (st : ServerState) (ev : Event) : ServerState × Out :=
  match ev with
  | .msg ws m => handleMessage st ws m
  | .disconnect ws => leaveRoom st ws
  | .timerFire call_id => fireRing st call_id

/-- The connection an event originates from (timer fires have none; the
value is irrelevant for them). -/
def actor : Event → ConnId
  | .msg ws _ => ws
  | .disconnect ws => ws
  | .timerFire _ => 0

/-- Run a sequence of events. -/
def run (st : ServerState) : List Event → ServerState
  | [] => st
  | ev :: rest => run (step st ev).1 rest

/-- Number of effective ring-resend fires for `call_id` along a trace: timer
fires for that id that actually emit a frame. -/
def effFires (st : ServerState) (evs : List Event) (call_id : Nat) : Nat :=
  match evs with
  | [] => 0
  | ev :: rest =>
    let n := effFires (step st ev).1 rest call_id
    match ev with
    | .timerFire j => if j = call_id ∧ (step st ev).2 ≠ [] then n + 1 else n
    | _ => n

/-- The empty server at process start. -/
def initState : ServerState :=
  { rooms := [], metas := [], ringTimers := [], nextId := 0 }

/-- Reachability from process start by serialized steps. -/
inductive Reach : ServerState → Prop where
  | init : Reach initState
  | next : ∀ {st : ServerState} (ev : Event), Reach st → Reach (step st ev).1

/-- The id of the room's active call, if the room exists and has one. -/
def activeIdOf (st : ServerState) (k : String) : Option Nat :=
  match getA k st.rooms with
  | none => none
  | some r => r.activeCall.map Call.id

/-- How many members of room `k` currently carry display name `n`. -/
def countNamed (st : ServerState) (k : String) (n : String) : Nat :=
  match getA k st.rooms with
  | none => 0
  | some r => (r.members.filter (fun ws => (getMeta st ws).name = some n)).length

/-- The member set of room `k` (empty if the room is not in the registry). -/
def membersOf (st : ServerState) (k : String) : List ConnId :=
  match getA k st.rooms with
  | none => []
  | some r => r.members

/-- The call record produced by the START transition of `accept`:
CONNECTING, started, pending drained. -/
def startedCall (c : Call) : Call :=
  { c with state := "CONNECTING", started := true, pending := [] }

/-- The call record after one more frame was buffered pre-START. -/
def pushPending (c : Call) (p : PendItem) : Call :=
  { c with pending := c.pending ++ [p] }

/-- The room record with its active-call slot replaced. -/
def withCall (r : Room) (oc : Option Call) : Room :=
  { r with activeCall := oc }

/-- The room record after a member left: the member removed, the call slot
cleared. -/
def leftRoom (r : Room) (ws : ConnId) : Room :=
  { members := r.members.filter (fun m => m ≠ ws), activeCall := none }

/-! ### Concrete states used by witnesses and counterexamples -/

/-- A started call `1 → 2` with id `0`. -/
def callConn : Call where
  id := 0
  caller := 1
  callee := 2
  started := true
  state := "CONNECTING"
  pending := []

/-- Room with members `1` and `2` and the started call `callConn`. -/
def roomConn : Room where
  members := [1, 2]
  activeCall := some callConn

/-- A ringing call `1 → 2` with id `0` holding one buffered offer. -/
def callRinging : Call where
  id := 0
  caller := 1
  callee := 2
  started := false
  state := "RINGING"
  pending := [⟨2, SFrame.offer 0 "sdpA"⟩]

/-- Room with members `1` and `2` and the ringing call `callRinging`. -/
def roomRinging : Room where
  members := [1, 2]
  activeCall := some callRinging

/-- Room `"r"` with members `1` (alice) and `2` (bob) and a started call
`1 → 2` with id `0`: the state after join, join, invite, accept. -/
def stConn : ServerState where
  rooms := [("r", roomConn)]
  metas := [(1, { room := some "r", name := some "alice" }),
            (2, { room := some "r", name := some "bob" })]
  ringTimers := []
  nextId := 1

/-- Room `"r"` with members `1` (alice) and `2` (bob) and a ringing call
`1 → 2` with id `0` that has one buffered offer: the state after join,
join, invite, offer. -/
def stRinging : ServerState where
  rooms := [("r", roomRinging)]
  metas := [(1, { room := some "r", name := some "alice" }),
            (2, { room := some "r", name := some "bob" })]
  ringTimers := [(0, { tries := 1, roomKey := "r", armed := true })]
  nextId := 1

/-- Room `"r1"` with the single member `1` named `"alice"` and no call. -/
def stAlice : ServerState where
  rooms := [("r1", { members := [1], activeCall := none })]
  metas := [(1, { room := some "r1", name := some "alice" })]
  ringTimers := []
  nextId := 0

/-- Rooms present in the registry are non-empty. -/
def MemInv (st : ServerState) : Prop :=
  ∀ k r, getA k st.rooms = some r → r.members ≠ []

/-- Every active call's callee is still a member of its room, and every
call id was produced by the freshness counter. -/
def CallInv (st : ServerState) : Prop :=
  ∀ k r c, getA k st.rooms = some r → r.activeCall = some c →
    c.callee ∈ r.members ∧ c.id < st.nextId

/-- Ring-timer entries carry an id produced by the freshness counter,
never exceed `RING_RETRY_MAX` tries, and an armed entry has been scheduled
at least once. -/
def TimerInv (st : ServerState) : Prop :=
  ∀ i e, getA i st.ringTimers = some e →
    i < st.nextId ∧ e.tries ≤ RING_RETRY_MAX ∧ (e.armed = true → 1 ≤ e.tries)

/-- The inductive invariant of the server. -/
def Inv (st : ServerState) : Prop := MemInv st ∧ CallInv st ∧ TimerInv st

/-- Upper bound on the number of effective ring fires still possible for
call id `i`, as a function of the timer map and the freshness counter. -/
def budgetT (timers : List (Nat × RingEntry)) (n : Nat) (i : Nat) : Nat :=
  match getA i timers with
  | some e => if e.armed then RING_RETRY_MAX + 1 - e.tries else 0
  | none => if i < n then 0 else RING_RETRY_MAX

/-- Upper bound on the number of effective ring fires still possible for
call id `i` from state `st`. -/
def budget (st : ServerState) (i : Nat) : Nat :=
  budgetT st.ringTimers st.nextId i

/-! ### Association-list and member-set lemmas -/

theorem getA_updA {α β : Type} [DecidableEq α] (k i : α) (v : β) (l : List (α × β)) :
    getA i (updA k v l) = if k = i then some v else getA i l := by
  induction l with
  | nil => by_cases h : k = i <;> simp [getA, updA, h]
  | cons p rest ih =>
    obtain ⟨k', v'⟩ := p
    by_cases h : k' = k
    · subst h
      by_cases h2 : k' = i <;> simp [getA, updA, h2]
    · by_cases h2 : k' = i
      · subst h2
        have hne : k ≠ k' := fun h3 => h h3.symm
        simp [getA, updA, h, hne]
      · simp [getA, updA, h, h2, ih]

theorem getA_updA_self {α β : Type} [DecidableEq α] (k : α) (v : β) (l : List (α × β)) :
    getA k (updA k v l) = some v := by
  simp [getA_updA]

theorem getA_updA_ne {α β : Type} [DecidableEq α] {k i : α} (h : k ≠ i) (v : β)
    (l : List (α × β)) : getA i (updA k v l) = getA i l := by
  simp [getA_updA, h]

theorem getA_delA {α β : Type} [DecidableEq α] (k i : α) (l : List (α × β)) :
    getA i (delA k l) = if k = i then none else getA i l := by
  induction l with
  | nil => by_cases h : k = i <;> simp [getA, delA, h]
  | cons p rest ih =>
    obtain ⟨k', v'⟩ := p
    by_cases h : k' = k
    · subst h
      by_cases h2 : k' = i
      · subst h2
        simp [delA, getA, ih]
      · simp [delA, getA, ih, h2]
    · by_cases h2 : k' = i
      · subst h2
        have hne : ¬ k = k' := fun hh => h hh.symm
        simp [delA, getA, h, hne]
      · simp [delA, getA, h, h2, ih]

theorem getA_delA_self {α β : Type} [DecidableEq α] (k : α) (l : List (α × β)) :
    getA k (delA k l) = none := by
  simp [getA_delA]

theorem getA_delA_ne {α β : Type} [DecidableEq α] {k i : α} (h : k ≠ i)
    (l : List (α × β)) : getA i (delA k l) = getA i l := by
  simp [getA_delA, h]

theorem updA_getA_self {α β : Type} [DecidableEq α] {k : α} {v : β} {l : List (α × β)}
    (h : getA k l = some v) : updA k v l = l := by
  induction l with
  | nil => simp [getA] at h
  | cons p rest ih =>
    obtain ⟨k', v'⟩ := p
    by_cases h2 : k' = k
    · subst h2
      simp [getA] at h
      simp [updA, h]
    · simp [getA, h2] at h
      simp [updA, h2, ih h]

theorem updA_updA {α β : Type} [DecidableEq α] (k : α) (v w : β) (l : List (α × β)) :
    updA k v (updA k w l) = updA k v l := by
  induction l with
  | nil => simp [updA]
  | cons p rest ih =>
    obtain ⟨k', v'⟩ := p
    by_cases h : k' = k
    · subst h
      simp [updA]
    · simp [updA, h, ih]

theorem filter_ne_idem (l : List ConnId) (ws : ConnId) :
    (l.filter (fun m => m ≠ ws)).filter (fun m => m ≠ ws) = l.filter (fun m => m ≠ ws) := by
  induction l with
  | nil => rfl
  | cons a t ih =>
    by_cases h : a = ws
    · simp [List.filter_cons, h, ih]
    · simp [List.filter_cons, h, ih]

theorem mem_addMember_self (l : List ConnId) (ws : ConnId) : ws ∈ addMember l ws := by
  by_cases h : ws ∈ l <;> simp [addMember, h]

theorem mem_addMember_of_mem {l : List ConnId} {a : ConnId} (ws : ConnId) (h : a ∈ l) :
    a ∈ addMember l ws := by
  by_cases h2 : ws ∈ l <;> simp [addMember, h2, h]

theorem addMember_ne_nil (l : List ConnId) (ws : ConnId) : addMember l ws ≠ [] := by
  by_cases h : ws ∈ l
  · simp only [addMember, if_pos h]
    intro hnil
    rw [hnil] at h
    simp at h
  · simp [addMember, h]

/-! ### Preservation of the invariant -/

theorem timerInv_delA {st : ServerState} (j : Nat) (ht : TimerInv st) :
    TimerInv { st with ringTimers := delA j st.ringTimers } := by
  intro i e hi
  rw [getA_delA] at hi
  by_cases h : j = i
  · simp [h] at hi
  · rw [if_neg h] at hi
    exact ht i e hi

theorem inv_leaveRoom (st : ServerState) (ws : ConnId) (h : Inv st) :
    Inv (leaveRoom st ws).1 := by
  obtain ⟨hm, hc, ht⟩ := h
  cases hg : truthy (getMeta st ws).room with
  | none =>
    simp only [leaveRoom, hg]
    exact ⟨hm, hc, ht⟩
  | some roomKey =>
    cases hr : getA roomKey st.rooms with
    | none =>
      simp only [leaveRoom, hg, hr]
      exact ⟨hm, hc, ht⟩
    | some r =>
      cases hac : r.activeCall with
      | none =>
        simp only [leaveRoom, hg, hr, hac]
        by_cases hnil : r.members.filter (fun m => m ≠ ws) = []
        · rw [if_pos hnil]
          refine ⟨?_, ?_, ht⟩
          · intro k' r' h'
            rw [getA_delA] at h'
            by_cases hk : roomKey = k'
            · simp [hk] at h'
            · rw [if_neg hk] at h'
              exact hm k' r' h'
          · intro k' r' c' h' hc'
            rw [getA_delA] at h'
            by_cases hk : roomKey = k'
            · simp [hk] at h'
            · rw [if_neg hk] at h'
              exact hc k' r' c' h' hc'
        · rw [if_neg hnil]
          refine ⟨?_, ?_, ht⟩
          · intro k' r' h'
            rw [getA_updA] at h'
            by_cases hk : roomKey = k'
            · rw [if_pos hk] at h'
              cases h'
              exact hnil
            · rw [if_neg hk] at h'
              exact hm k' r' h'
          · intro k' r' c' h' hc'
            rw [getA_updA] at h'
            by_cases hk : roomKey = k'
            · rw [if_pos hk] at h'
              cases h'
              simp [hac] at hc'
            · rw [if_neg hk] at h'
              exact hc k' r' c' h' hc'
      | some call =>
        by_cases hp : ws = call.caller ∨ ws = call.callee
        · simp only [leaveRoom, hg, hr, hac, if_pos hp, clearActiveCall]
          by_cases hnil : r.members.filter (fun m => m ≠ ws) = []
          · rw [if_pos hnil]
            refine ⟨?_, ?_, timerInv_delA call.id ht⟩
            · intro k' r' h'
              rw [getA_delA] at h'
              by_cases hk : roomKey = k'
              · simp [hk] at h'
              · rw [if_neg hk] at h'
                exact hm k' r' h'
            · intro k' r' c' h' hc'
              rw [getA_delA] at h'
              by_cases hk : roomKey = k'
              · simp [hk] at h'
              · rw [if_neg hk] at h'
                exact hc k' r' c' h' hc'
          · rw [if_neg hnil]
            refine ⟨?_, ?_, timerInv_delA call.id ht⟩
            · intro k' r' h'
              rw [getA_updA] at h'
              by_cases hk : roomKey = k'
              · rw [if_pos hk] at h'
                cases h'
                exact hnil
              · rw [if_neg hk] at h'
                exact hm k' r' h'
            · intro k' r' c' h' hc'
              rw [getA_updA] at h'
              by_cases hk : roomKey = k'
              · rw [if_pos hk] at h'
                cases h'
                simp at hc'
              · rw [if_neg hk] at h'
                exact hc k' r' c' h' hc'
        · simp only [leaveRoom, hg, hr, hac, if_neg hp]
          have hcallee := hc roomKey r call hr hac
          have hne : call.callee ≠ ws := by
            intro hh
            exact hp (Or.inr hh.symm)
          have hmemf : call.callee ∈ r.members.filter (fun m => m ≠ ws) := by
            rw [List.mem_filter]
            exact ⟨hcallee.1, by simp [hne]⟩
          have hnil : ¬ r.members.filter (fun m => m ≠ ws) = [] := by
            intro hh
            rw [hh] at hmemf
            simp at hmemf
          rw [if_neg hnil]
          refine ⟨?_, ?_, ht⟩
          · intro k' r' h'
            rw [getA_updA] at h'
            by_cases hk : roomKey = k'
            · rw [if_pos hk] at h'
              cases h'
              exact hnil
            · rw [if_neg hk] at h'
              exact hm k' r' h'
          · intro k' r' c' h' hc'
            rw [getA_updA] at h'
            by_cases hk : roomKey = k'
            · rw [if_pos hk] at h'
              cases h'
              simp [hac] at hc'
              cases hc'
              exact ⟨hmemf, hcallee.2⟩
            · rw [if_neg hk] at h'
              exact hc k' r' c' h' hc'

theorem timerInv_updA {st : ServerState} (ht : TimerInv st) (i : Nat) (v : RingEntry)
    (h1 : i < st.nextId) (h2 : v.tries ≤ RING_RETRY_MAX)
    (h3 : v.armed = true → 1 ≤ v.tries) :
    TimerInv { st with ringTimers := updA i v st.ringTimers } := by
  intro i' e' h'
  rw [getA_updA] at h'
  by_cases hk : i = i'
  · rw [if_pos hk] at h'
    cases h'
    subst hk
    exact ⟨h1, h2, h3⟩
  · rw [if_neg hk] at h'
    exact ht i' e' h'

theorem getA_timers_nextId_none {st : ServerState} (ht : TimerInv st) :
    getA st.nextId st.ringTimers = none := by
  cases hg : getA st.nextId st.ringTimers with
  | none => rfl
  | some e => exact absurd (ht _ _ hg).1 (lt_irrefl _)

theorem inv_fireRing (st : ServerState) (i : Nat) (h : Inv st) :
    Inv (fireRing st i).1 := by
  obtain ⟨hm, hc, ht⟩ := h
  cases hg : getA i st.ringTimers with
  | none =>
    simp only [fireRing, hg]
    exact ⟨hm, hc, ht⟩
  | some e =>
    by_cases ha : e.armed = true
    · have hte := ht i e hg
      have htimers1 : TimerInv { st with ringTimers := updA i { e with armed := false } st.ringTimers } :=
        timerInv_updA ht i _ hte.1 hte.2.1 (by simp)
      cases hr : getA e.roomKey st.rooms with
      | none =>
        simp only [fireRing, hg, ha, if_true]
        rw [hr]
        exact ⟨hm, hc, htimers1⟩
      | some r =>
        cases hac : r.activeCall with
        | none =>
          simp only [fireRing, hg, ha, if_true]
          rw [hr]
          simp only [hac]
          exact ⟨hm, hc, htimers1⟩
        | some call =>
          by_cases hguard : call.id = i ∧ call.started = false
          · simp only [fireRing, hg, ha, if_true]
            rw [hr]
            simp only [hac, if_pos hguard]
            refine ⟨hm, hc, ?_⟩
            have hsched : scheduleRingResend i e.roomKey (updA i { e with armed := false } st.ringTimers) =
                if RING_RETRY_MAX ≤ e.tries then
                  updA i { tries := e.tries, roomKey := e.roomKey, armed := false }
                    (updA i { e with armed := false } st.ringTimers)
                else
                  updA i { tries := e.tries + 1, roomKey := e.roomKey, armed := true }
                    (updA i { e with armed := false } st.ringTimers) := by
              unfold scheduleRingResend
              rw [getA_updA_self]
              rfl
            rw [hsched]
            by_cases hmax : RING_RETRY_MAX ≤ e.tries
            · rw [if_pos hmax]
              exact timerInv_updA htimers1 i _ hte.1 hte.2.1 (by simp)
            · rw [if_neg hmax]
              refine timerInv_updA htimers1 i _ hte.1 ?_ (fun _ => Nat.le_add_left 1 e.tries)
              show e.tries + 1 ≤ RING_RETRY_MAX
              omega
          · simp only [fireRing, hg, ha, if_true]
            rw [hr]
            simp only [hac, if_neg hguard]
            exact ⟨hm, hc, htimers1⟩
    · have ha' : e.armed = false := by
        cases harm : e.armed
        · rfl
        · exact absurd harm ha
      simp only [fireRing, hg, ha']
      exact ⟨hm, hc, ht⟩

theorem inv_relayOrBuffer (st : ServerState) (roomKey : String) (r : Room) (ws : ConnId)
    (cid : Option Nat) (mk : Nat → SFrame) (hr : getA roomKey st.rooms = some r)
    (h : Inv st) : Inv (relayOrBuffer st roomKey r ws cid mk).1 := by
  obtain ⟨hm, hc, ht⟩ := h
  cases hac : r.activeCall with
  | none =>
    simp only [relayOrBuffer, hac]
    exact ⟨hm, hc, ht⟩
  | some c0 =>
    by_cases hid : cid = some c0.id
    · by_cases hs : c0.started = true
      · simp only [relayOrBuffer, hac, if_pos hid, if_pos hs]
        exact ⟨hm, hc, ht⟩
      · simp only [relayOrBuffer, hac, if_pos hid, if_neg hs]
        refine ⟨?_, ?_, ht⟩
        · intro k' r' h'
          rw [getA_updA] at h'
          by_cases hk : roomKey = k'
          · rw [if_pos hk] at h'
            cases h'
            exact hm _ r (hk ▸ hr)
          · rw [if_neg hk] at h'
            exact hm k' r' h'
        · intro k' r' c' h' hc'
          rw [getA_updA] at h'
          by_cases hk : roomKey = k'
          · rw [if_pos hk] at h'
            cases h'
            simp only [Option.some_inj] at hc'
            subst hc'
            have := hc roomKey r c0 hr hac
            exact ⟨this.1, this.2⟩
          · rw [if_neg hk] at h'
            exact hc k' r' c' h' hc'
    · simp only [relayOrBuffer, hac, if_neg hid]
      exact ⟨hm, hc, ht⟩

theorem inv_handleMessage (st : ServerState) (ws : ConnId) (m : CFrame) (h : Inv st) :
    Inv (handleMessage st ws m).1 := by
  obtain ⟨hm, hc, ht⟩ := h
  cases m with
  | join room name =>
    simp only [handleMessage]
    refine ⟨?_, ?_, ht⟩
    · intro k' r' h'
      rw [getA_updA] at h'
      by_cases hk : strOr room "default" = k'
      · rw [if_pos hk] at h'
        cases h'
        exact addMember_ne_nil _ ws
      · rw [if_neg hk] at h'
        exact hm k' r' h'
    · intro k' r' c' h' hc'
      rw [getA_updA] at h'
      by_cases hk : strOr room "default" = k'
      · rw [if_pos hk] at h'
        cases h'
        simp only at hc'
        cases hd : getA (strOr room "default") st.rooms with
        | none =>
          rw [hd] at hc'
          simp [Option.getD] at hc'
        | some r0 =>
          rw [hd] at hc'
          simp only [Option.getD] at hc'
          have := hc _ r0 c' hd hc'
          exact ⟨mem_addMember_of_mem ws this.1, this.2⟩
      · rw [if_neg hk] at h'
        exact hc k' r' c' h' hc'
  | invite =>
    cases hg : truthy (getMeta st ws).room with
    | none =>
      simp only [handleMessage, hg]
      exact ⟨hm, hc, ht⟩
    | some roomKey =>
      cases hr : getA roomKey st.rooms with
      | none =>
        simp only [handleMessage, hg, hr]
        exact ⟨hm, hc, ht⟩
      | some r =>
        cases hac : r.activeCall with
        | some c0 =>
          simp only [handleMessage, hg, hr, hac]
          exact ⟨hm, hc, ht⟩
        | none =>
          cases hf : r.members.find? (fun x => x ≠ ws) with
          | none =>
            simp only [handleMessage, hg, hr, hac, hf]
            exact ⟨hm, hc, ht⟩
          | some callee =>
            simp only [handleMessage, hg, hr, hac, hf]
            have hsched : scheduleRingResend st.nextId roomKey st.ringTimers =
                updA st.nextId { tries := 1, roomKey := roomKey, armed := true } st.ringTimers := by
              unfold scheduleRingResend
              rw [getA_timers_nextId_none ht]
              rfl
            rw [hsched]
            refine ⟨?_, ?_, ?_⟩
            · intro k' r' h'
              rw [getA_updA] at h'
              by_cases hk : roomKey = k'
              · rw [if_pos hk] at h'
                cases h'
                simp only
                exact hm _ r (hk ▸ hr)
              · rw [if_neg hk] at h'
                exact hm k' r' h'
            · intro k' r' c' h' hc'
              rw [getA_updA] at h'
              by_cases hk : roomKey = k'
              · rw [if_pos hk] at h'
                cases h'
                simp only [Option.some_inj] at hc'
                subst hc'
                refine ⟨List.mem_of_find?_eq_some hf, Nat.lt_succ_self _⟩
              · rw [if_neg hk] at h'
                have := hc k' r' c' h' hc'
                exact ⟨this.1, Nat.lt_succ_of_lt this.2⟩
            · intro i' e' h'
              rw [getA_updA] at h'
              by_cases hk : st.nextId = i'
              · rw [if_pos hk] at h'
                cases h'
                subst hk
                exact ⟨Nat.lt_succ_self _, by simp [RING_RETRY_MAX], fun _ => le_refl 1⟩
              · rw [if_neg hk] at h'
                have := ht i' e' h'
                exact ⟨Nat.lt_succ_of_lt this.1, this.2⟩
  | ringAck cid =>
    cases hg : truthy (getMeta st ws).room with
    | none =>
      simp only [handleMessage, hg]
      exact ⟨hm, hc, ht⟩
    | some roomKey =>
      cases hr : getA roomKey st.rooms with
      | none =>
        simp only [handleMessage, hg, hr]
        exact ⟨hm, hc, ht⟩
      | some r =>
        cases hac : r.activeCall with
        | none =>
          simp only [handleMessage, hg, hr, hac]
          exact ⟨hm, hc, ht⟩
        | some c0 =>
          simp only [handleMessage, hg, hr, hac]
          by_cases hid : cid = some c0.id
          · rw [if_pos hid]
            exact ⟨hm, hc, timerInv_delA c0.id ht⟩
          · rw [if_neg hid]
            exact ⟨hm, hc, ht⟩
  | accept cid =>
    cases hg : truthy (getMeta st ws).room with
    | none =>
      simp only [handleMessage, hg]
      exact ⟨hm, hc, ht⟩
    | some roomKey =>
      cases hr : getA roomKey st.rooms with
      | none =>
        simp only [handleMessage, hg, hr]
        exact ⟨hm, hc, ht⟩
      | some r =>
        cases hac : r.activeCall with
        | none =>
          simp only [handleMessage, hg, hr, hac]
          exact ⟨hm, hc, ht⟩
        | some c0 =>
          simp only [handleMessage, hg, hr, hac]
          by_cases hid : cid = some c0.id
          · rw [if_pos hid]
            refine ⟨?_, ?_, timerInv_delA c0.id ht⟩
            · intro k' r' h'
              rw [getA_updA] at h'
              by_cases hk : roomKey = k'
              · rw [if_pos hk] at h'
                cases h'
                exact hm _ r (hk ▸ hr)
              · rw [if_neg hk] at h'
                exact hm k' r' h'
            · intro k' r' c' h' hc'
              rw [getA_updA] at h'
              by_cases hk : roomKey = k'
              · rw [if_pos hk] at h'
                cases h'
                simp only [Option.some_inj] at hc'
                subst hc'
                have := hc roomKey r c0 hr hac
                exact ⟨this.1, this.2⟩
              · rw [if_neg hk] at h'
                exact hc k' r' c' h' hc'
          · rw [if_neg hid]
            exact ⟨hm, hc, ht⟩
  | decline cid =>
    cases hg : truthy (getMeta st ws).room with
    | none =>
      simp only [handleMessage, hg]
      exact ⟨hm, hc, ht⟩
    | some roomKey =>
      cases hr : getA roomKey st.rooms with
      | none =>
        simp only [handleMessage, hg, hr]
        exact ⟨hm, hc, ht⟩
      | some r =>
        cases hac : r.activeCall with
        | none =>
          simp only [handleMessage, hg, hr, hac]
          exact ⟨hm, hc, ht⟩
        | some c0 =>
          simp only [handleMessage, hg, hr, hac]
          by_cases hid : cid = some c0.id
          · rw [if_pos hid]
            simp only [clearActiveCall, hac]
            refine ⟨?_, ?_, timerInv_delA c0.id ht⟩
            · intro k' r' h'
              rw [getA_updA] at h'
              by_cases hk : roomKey = k'
              · rw [if_pos hk] at h'
                cases h'
                exact hm _ r (hk ▸ hr)
              · rw [if_neg hk] at h'
                exact hm k' r' h'
            · intro k' r' c' h' hc'
              rw [getA_updA] at h'
              by_cases hk : roomKey = k'
              · rw [if_pos hk] at h'
                cases h'
                simp at hc'
              · rw [if_neg hk] at h'
                exact hc k' r' c' h' hc'
          · rw [if_neg hid]
            exact ⟨hm, hc, ht⟩
  | hangup cid =>
    cases hg : truthy (getMeta st ws).room with
    | none =>
      simp only [handleMessage, hg]
      exact ⟨hm, hc, ht⟩
    | some roomKey =>
      cases hr : getA roomKey st.rooms with
      | none =>
        simp only [handleMessage, hg, hr]
        exact ⟨hm, hc, ht⟩
      | some r =>
        cases hac : r.activeCall with
        | none =>
          simp only [handleMessage, hg, hr, hac]
          exact ⟨hm, hc, ht⟩
        | some c0 =>
          simp only [handleMessage, hg, hr, hac]
          by_cases hid : cid = some c0.id
          · rw [if_pos hid]
            simp only [clearActiveCall, hac]
            refine ⟨?_, ?_, timerInv_delA c0.id ht⟩
            · intro k' r' h'
              rw [getA_updA] at h'
              by_cases hk : roomKey = k'
              · rw [if_pos hk] at h'
                cases h'
                exact hm _ r (hk ▸ hr)
              · rw [if_neg hk] at h'
                exact hm k' r' h'
            · intro k' r' c' h' hc'
              rw [getA_updA] at h'
              by_cases hk : roomKey = k'
              · rw [if_pos hk] at h'
                cases h'
                simp at hc'
              · rw [if_neg hk] at h'
                exact hc k' r' c' h' hc'
          · rw [if_neg hid]
            exact ⟨hm, hc, ht⟩
  | offer cid sdp =>
    cases hg : truthy (getMeta st ws).room with
    | none =>
      simp only [handleMessage, hg]
      exact ⟨hm, hc, ht⟩
    | some roomKey =>
      cases hr : getA roomKey st.rooms with
      | none =>
        simp only [handleMessage, hg, hr]
        exact ⟨hm, hc, ht⟩
      | some r =>
        simp only [handleMessage, hg, hr]
        exact inv_relayOrBuffer st roomKey r ws cid _ hr ⟨hm, hc, ht⟩
  | answer cid sdp =>
    cases hg : truthy (getMeta st ws).room with
    | none =>
      simp only [handleMessage, hg]
      exact ⟨hm, hc, ht⟩
    | some roomKey =>
      cases hr : getA roomKey st.rooms with
      | none =>
        simp only [handleMessage, hg, hr]
        exact ⟨hm, hc, ht⟩
      | some r =>
        simp only [handleMessage, hg, hr]
        exact inv_relayOrBuffer st roomKey r ws cid _ hr ⟨hm, hc, ht⟩
  | ice cid cand =>
    cases hg : truthy (getMeta st ws).room with
    | none =>
      simp only [handleMessage, hg]
      exact ⟨hm, hc, ht⟩
    | some roomKey =>
      cases hr : getA roomKey st.rooms with
      | none =>
        simp only [handleMessage, hg, hr]
        exact ⟨hm, hc, ht⟩
      | some r =>
        simp only [handleMessage, hg, hr]
        exact inv_relayOrBuffer st roomKey r ws cid _ hr ⟨hm, hc, ht⟩
  | leaveRoom =>
    cases hg : truthy (getMeta st ws).room with
    | none =>
      simp only [handleMessage, hg]
      exact ⟨hm, hc, ht⟩
    | some roomKey =>
      cases hr : getA roomKey st.rooms with
      | none =>
        simp only [handleMessage, hg, hr]
        exact ⟨hm, hc, ht⟩
      | some r =>
        simp only [handleMessage, hg, hr]
        exact inv_leaveRoom st ws ⟨hm, hc, ht⟩
  | unknownMsg =>
    cases hg : truthy (getMeta st ws).room with
    | none =>
      simp only [handleMessage, hg]
      exact ⟨hm, hc, ht⟩
    | some roomKey =>
      cases hr : getA roomKey st.rooms with
      | none =>
        simp only [handleMessage, hg, hr]
        exact ⟨hm, hc, ht⟩
      | some r =>
        simp only [handleMessage, hg, hr]
        exact ⟨hm, hc, ht⟩

theorem inv_step (st : ServerState) (ev : Event) (h : Inv st) : Inv (step st ev).1 := by
  cases ev with
  | msg ws m => exact inv_handleMessage st ws m h
  | disconnect ws => exact inv_leaveRoom st ws h
  | timerFire i => exact inv_fireRing st i h

theorem inv_init : Inv initState :=
  ⟨fun k r h => by simp [initState, getA] at h,
   fun k r c h => by simp [initState, getA] at h,
   fun i e h => by simp [initState, getA] at h⟩

theorem reach_inv {st : ServerState} (h : Reach st) : Inv st := by
  induction h with
  | init => exact inv_init
  | next ev _ ih => exact inv_step _ ev ih

/-! ### The ring-resend budget -/

theorem getA_schedule_ne {j i : Nat} (h : j ≠ i) (k : String)
    (T : List (Nat × RingEntry)) :
    getA i (scheduleRingResend j k T) = getA i T := by
  unfold scheduleRingResend
  dsimp only
  split <;> rw [getA_updA_ne h]

theorem budgetT_delA_le (T : List (Nat × RingEntry)) (n j i : Nat) (hj : j < n) :
    budgetT (delA j T) n i ≤ budgetT T n i := by
  by_cases hji : j = i
  · subst hji
    unfold budgetT
    rw [getA_delA_self, if_pos hj]
    exact Nat.zero_le _
  · unfold budgetT
    rw [getA_delA_ne hji]

theorem budgetT_fresh_le (T : List (Nat × RingEntry)) (n i : Nat) (k : String)
    (hfresh : getA n T = none) :
    budgetT (scheduleRingResend n k T) (n + 1) i ≤ budgetT T n i := by
  have hnot : ¬ RING_RETRY_MAX ≤ (0 : Nat) := by simp [RING_RETRY_MAX]
  by_cases hni : n = i
  · subst hni
    unfold budgetT scheduleRingResend
    rw [hfresh]
    simp only [Option.getD_none]
    rw [if_neg hnot, getA_updA_self]
    simp [RING_RETRY_MAX, hfresh]
  · unfold budgetT scheduleRingResend
    rw [hfresh]
    simp only [Option.getD_none]
    rw [if_neg hnot, getA_updA_ne hni]
    cases hgi : getA i T with
    | some e => exact le_refl _
    | none =>
      by_cases hin : i < n
      · rw [if_pos hin, if_pos (Nat.lt_succ_of_lt hin)]
      · have hin' : ¬ i < n + 1 := by omega
        rw [if_neg hin, if_neg hin']

theorem handle_ok (st : ServerState) (ws : ConnId) (m : CFrame) (h : Inv st) :
    st.nextId ≤ ((handleMessage st ws m).1).nextId ∧
    (∀ i, budget (handleMessage st ws m).1 i ≤ budget st i) ∧
    (∀ i, getA i st.ringTimers = none → i < st.nextId →
      getA i (((handleMessage st ws m).1)).ringTimers = none) := by
  obtain ⟨hm, hc, ht⟩ := h
  have triv : st.nextId ≤ st.nextId ∧ (∀ i, budget st i ≤ budget st i) ∧
      (∀ i, getA i st.ringTimers = none → i < st.nextId →
        getA i st.ringTimers = none) :=
    ⟨le_refl _, fun _ => le_refl _, fun _ h1 _ => h1⟩
  have hdel : ∀ (j : Nat), j < st.nextId →
      (∀ i, budgetT (delA j st.ringTimers) st.nextId i ≤ budgetT st.ringTimers st.nextId i) ∧
      (∀ i, getA i st.ringTimers = none → getA i (delA j st.ringTimers) = none) := by
    intro j hj
    constructor
    · intro i
      exact budgetT_delA_le _ _ _ _ hj
    · intro i h1
      rw [getA_delA]
      by_cases hji : j = i
      · rw [if_pos hji]
      · rw [if_neg hji]
        exact h1
  cases m with
  | join room name => exact triv
  | invite =>
    cases hg : truthy (getMeta st ws).room with
    | none =>
      simp only [handleMessage, hg]
      exact triv
    | some roomKey =>
      cases hr : getA roomKey st.rooms with
      | none =>
        simp only [handleMessage, hg, hr]
        exact triv
      | some r =>
        cases hac : r.activeCall with
        | some c0 =>
          simp only [handleMessage, hg, hr, hac]
          exact triv
        | none =>
          cases hf : r.members.find? (fun x => x ≠ ws) with
          | none =>
            simp only [handleMessage, hg, hr, hac, hf]
            exact triv
          | some callee =>
            simp only [handleMessage, hg, hr, hac, hf]
            refine ⟨Nat.le_succ _, ?_, ?_⟩
            · intro i
              exact budgetT_fresh_le _ _ _ _ (getA_timers_nextId_none ht)
            · intro i h1 h2
              have hne : st.nextId ≠ i := fun hh => absurd (hh ▸ h2) (lt_irrefl _)
              rw [getA_schedule_ne hne]
              exact h1
  | ringAck cid =>
    cases hg : truthy (getMeta st ws).room with
    | none =>
      simp only [handleMessage, hg]
      exact triv
    | some roomKey =>
      cases hr : getA roomKey st.rooms with
      | none =>
        simp only [handleMessage, hg, hr]
        exact triv
      | some r =>
        cases hac : r.activeCall with
        | none =>
          simp only [handleMessage, hg, hr, hac]
          exact triv
        | some c0 =>
          simp only [handleMessage, hg, hr, hac]
          by_cases hid : cid = some c0.id
          · rw [if_pos hid]
            have hcid := (hc roomKey r c0 hr hac).2
            have hd := hdel c0.id hcid
            exact ⟨le_refl _, hd.1, fun i h1 _ => hd.2 i h1⟩
          · rw [if_neg hid]
            exact triv
  | accept cid =>
    cases hg : truthy (getMeta st ws).room with
    | none =>
      simp only [handleMessage, hg]
      exact triv
    | some roomKey =>
      cases hr : getA roomKey st.rooms with
      | none =>
        simp only [handleMessage, hg, hr]
        exact triv
      | some r =>
        cases hac : r.activeCall with
        | none =>
          simp only [handleMessage, hg, hr, hac]
          exact triv
        | some c0 =>
          simp only [handleMessage, hg, hr, hac]
          by_cases hid : cid = some c0.id
          · rw [if_pos hid]
            have hcid := (hc roomKey r c0 hr hac).2
            have hd := hdel c0.id hcid
            exact ⟨le_refl _, hd.1, fun i h1 _ => hd.2 i h1⟩
          · rw [if_neg hid]
            exact triv
  | decline cid =>
    cases hg : truthy (getMeta st ws).room with
    | none =>
      simp only [handleMessage, hg]
      exact triv
    | some roomKey =>
      cases hr : getA roomKey st.rooms with
      | none =>
        simp only [handleMessage, hg, hr]
        exact triv
      | some r =>
        cases hac : r.activeCall with
        | none =>
          simp only [handleMessage, hg, hr, hac]
          exact triv
        | some c0 =>
          simp only [handleMessage, hg, hr, hac]
          by_cases hid : cid = some c0.id
          · rw [if_pos hid]
            simp only [clearActiveCall, hac]
            have hcid := (hc roomKey r c0 hr hac).2
            have hd := hdel c0.id hcid
            exact ⟨le_refl _, hd.1, fun i h1 _ => hd.2 i h1⟩
          · rw [if_neg hid]
            exact triv
  | hangup cid =>
    cases hg : truthy (getMeta st ws).room with
    | none =>
      simp only [handleMessage, hg]
      exact triv
    | some roomKey =>
      cases hr : getA roomKey st.rooms with
      | none =>
        simp only [handleMessage, hg, hr]
        exact triv
      | some r =>
        cases hac : r.activeCall with
        | none =>
          simp only [handleMessage, hg, hr, hac]
          exact triv
        | some c0 =>
          simp only [handleMessage, hg, hr, hac]
          by_cases hid : cid = some c0.id
          · rw [if_pos hid]
            simp only [clearActiveCall, hac]
            have hcid := (hc roomKey r c0 hr hac).2
            have hd := hdel c0.id hcid
            exact ⟨le_refl _, hd.1, fun i h1 _ => hd.2 i h1⟩
          · rw [if_neg hid]
            exact triv
  | offer cid sdp =>
    cases hg : truthy (getMeta st ws).room with
    | none =>
      simp only [handleMessage, hg]
      exact triv
    | some roomKey =>
      cases hr : getA roomKey st.rooms with
      | none =>
        simp only [handleMessage, hg, hr]
        exact triv
      | some r =>
        simp only [handleMessage, hg, hr]
        cases hac : r.activeCall with
        | none =>
          simp only [relayOrBuffer, hac]
          exact triv
        | some c0 =>
          by_cases hid : cid = some c0.id
          · by_cases hs : c0.started = true
            · simp only [relayOrBuffer, hac, if_pos hid, if_pos hs]
              exact triv
            · simp only [relayOrBuffer, hac, if_pos hid, if_neg hs]
              exact triv
          · simp only [relayOrBuffer, hac, if_neg hid]
            exact triv
  | answer cid sdp =>
    cases hg : truthy (getMeta st ws).room with
    | none =>
      simp only [handleMessage, hg]
      exact triv
    | some roomKey =>
      cases hr : getA roomKey st.rooms with
      | none =>
        simp only [handleMessage, hg, hr]
        exact triv
      | some r =>
        simp only [handleMessage, hg, hr]
        cases hac : r.activeCall with
        | none =>
          simp only [relayOrBuffer, hac]
          exact triv
        | some c0 =>
          by_cases hid : cid = some c0.id
          · by_cases hs : c0.started = true
            · simp only [relayOrBuffer, hac, if_pos hid, if_pos hs]
              exact triv
            · simp only [relayOrBuffer, hac, if_pos hid, if_neg hs]
              exact triv
          · simp only [relayOrBuffer, hac, if_neg hid]
            exact triv
  | ice cid cand =>
    cases hg : truthy (getMeta st ws).room with
    | none =>
      simp only [handleMessage, hg]
      exact triv
    | some roomKey =>
      cases hr : getA roomKey st.rooms with
      | none =>
        simp only [handleMessage, hg, hr]
        exact triv
      | some r =>
        simp only [handleMessage, hg, hr]
        cases hac : r.activeCall with
        | none =>
          simp only [relayOrBuffer, hac]
          exact triv
        | some c0 =>
          by_cases hid : cid = some c0.id
          · by_cases hs : c0.started = true
            · simp only [relayOrBuffer, hac, if_pos hid, if_pos hs]
              exact triv
            · simp only [relayOrBuffer, hac, if_pos hid, if_neg hs]
              exact triv
          · simp only [relayOrBuffer, hac, if_neg hid]
            exact triv
  | leaveRoom =>
    cases hg : truthy (getMeta st ws).room with
    | none =>
      simp only [handleMessage, hg]
      exact triv
    | some roomKey =>
      cases hr : getA roomKey st.rooms with
      | none =>
        simp only [handleMessage, hg, hr]
        exact triv
      | some r =>
        simp only [handleMessage, hg, hr]
        cases hg2 : truthy (getMeta st ws).room with
        | none => rw [hg] at hg2; cases hg2
        | some roomKey2 =>
          rw [hg] at hg2
          cases hg2
          cases hac : r.activeCall with
          | none =>
            simp only [leaveRoom, hg, hr, hac]
            by_cases hnil : r.members.filter (fun x => x ≠ ws) = []
            · rw [if_pos hnil]
              exact triv
            · rw [if_neg hnil]
              exact triv
          | some call =>
            by_cases hp : ws = call.caller ∨ ws = call.callee
            · simp only [leaveRoom, hg, hr, hac, if_pos hp, clearActiveCall]
              have hcid := (hc roomKey r call hr hac).2
              have hd := hdel call.id hcid
              by_cases hnil : r.members.filter (fun x => x ≠ ws) = []
              · rw [if_pos hnil]
                exact ⟨le_refl _, hd.1, fun i h1 _ => hd.2 i h1⟩
              · rw [if_neg hnil]
                exact ⟨le_refl _, hd.1, fun i h1 _ => hd.2 i h1⟩
            · simp only [leaveRoom, hg, hr, hac, if_neg hp]
              by_cases hnil : r.members.filter (fun x => x ≠ ws) = []
              · rw [if_pos hnil]
                exact triv
              · rw [if_neg hnil]
                exact triv
  | unknownMsg =>
    cases hg : truthy (getMeta st ws).room with
    | none =>
      simp only [handleMessage, hg]
      exact triv
    | some roomKey =>
      cases hr : getA roomKey st.rooms with
      | none =>
        simp only [handleMessage, hg, hr]
        exact triv
      | some r =>
        simp only [handleMessage, hg, hr]
        exact triv

theorem leave_ok (st : ServerState) (ws : ConnId) (h : Inv st) :
    ((leaveRoom st ws).1).nextId = st.nextId ∧
    (∀ i, budget (leaveRoom st ws).1 i ≤ budget st i) ∧
    (∀ i, getA i st.ringTimers = none → getA i (((leaveRoom st ws).1)).ringTimers = none) := by
  obtain ⟨hm, hc, ht⟩ := h
  have triv : st.nextId = st.nextId ∧ (∀ i, budget st i ≤ budget st i) ∧
      (∀ i, getA i st.ringTimers = none → getA i st.ringTimers = none) :=
    ⟨rfl, fun _ => le_refl _, fun _ h1 => h1⟩
  cases hg : truthy (getMeta st ws).room with
  | none =>
    simp only [leaveRoom, hg]
    exact ⟨by trivial, fun i => le_refl _, fun i h1 => h1⟩
  | some roomKey =>
    cases hr : getA roomKey st.rooms with
    | none =>
      simp only [leaveRoom, hg, hr]
      exact ⟨by trivial, fun i => le_refl _, fun i h1 => h1⟩
    | some r =>
      cases hac : r.activeCall with
      | none =>
        simp only [leaveRoom, hg, hr, hac]
        by_cases hnil : r.members.filter (fun x => x ≠ ws) = []
        · rw [if_pos hnil]
          exact ⟨by trivial, fun i => le_refl _, fun i h1 => h1⟩
        · rw [if_neg hnil]
          exact ⟨by trivial, fun i => le_refl _, fun i h1 => h1⟩
      | some call =>
        by_cases hp : ws = call.caller ∨ ws = call.callee
        · simp only [leaveRoom, hg, hr, hac, if_pos hp, clearActiveCall]
          have hcid := (hc roomKey r call hr hac).2
          have hb : ∀ i, budgetT (delA call.id st.ringTimers) st.nextId i ≤
              budgetT st.ringTimers st.nextId i :=
            fun i => budgetT_delA_le _ _ _ _ hcid
          have hdd : ∀ i, getA i st.ringTimers = none →
              getA i (delA call.id st.ringTimers) = none := by
            intro i h1
            rw [getA_delA]
            by_cases hji : call.id = i
            · rw [if_pos hji]
            · rw [if_neg hji]
              exact h1
          by_cases hnil : r.members.filter (fun x => x ≠ ws) = []
          · rw [if_pos hnil]
            exact ⟨by trivial, hb, hdd⟩
          · rw [if_neg hnil]
            exact ⟨by trivial, hb, hdd⟩
        · simp only [leaveRoom, hg, hr, hac, if_neg hp]
          by_cases hnil : r.members.filter (fun x => x ≠ ws) = []
          · rw [if_pos hnil]
            exact ⟨by trivial, fun i => le_refl _, fun i h1 => h1⟩
          · rw [if_neg hnil]
            exact ⟨by trivial, fun i => le_refl _, fun i h1 => h1⟩

theorem fireRing_dead (st : ServerState) (i : Nat)
    (h : getA i st.ringTimers = none) : fireRing st i = (st, []) := by
  simp [fireRing, h]

theorem fire_ok (st : ServerState) (j : Nat) (h : Inv st) :
    ((fireRing st j).1).nextId = st.nextId ∧
    (∀ i, getA i st.ringTimers = none → getA i (((fireRing st j).1)).ringTimers = none) ∧
    (∀ i, ¬(j = i ∧ (fireRing st j).2 ≠ []) → budget (fireRing st j).1 i ≤ budget st i) ∧
    ((fireRing st j).2 ≠ [] → budget (fireRing st j).1 j + 1 ≤ budget st j) := by
  obtain ⟨hm, hc, ht⟩ := h
  cases hg : getA j st.ringTimers with
  | none =>
    simp only [fireRing, hg]
    exact ⟨by trivial, fun i h1 => h1, fun i _ => le_refl _, fun hout => absurd rfl hout⟩
  | some e =>
    by_cases ha : e.armed = true
    · have hte := ht j e hg
      have hconsume : ∀ i, getA i st.ringTimers = none →
          getA i (updA j { e with armed := false } st.ringTimers) = none := by
        intro i h1
        by_cases hji : j = i
        · subst hji
          rw [hg] at h1
          cases h1
        · rw [getA_updA_ne hji]
          exact h1
      have hbud1 : ∀ i, budgetT (updA j { e with armed := false } st.ringTimers) st.nextId i ≤
          budgetT st.ringTimers st.nextId i := by
        intro i
        by_cases hji : j = i
        · subst hji
          unfold budgetT
          rw [getA_updA_self, hg]
          simp
        · unfold budgetT
          rw [getA_updA_ne hji]
      cases hr : getA e.roomKey st.rooms with
      | none =>
        simp only [fireRing, hg, ha, if_true]
        rw [hr]
        exact ⟨by trivial, hconsume, fun i _ => hbud1 i, fun hout => absurd rfl hout⟩
      | some r =>
        cases hac : r.activeCall with
        | none =>
          simp only [fireRing, hg, ha, if_true]
          rw [hr]
          simp only [hac]
          exact ⟨by trivial, hconsume, fun i _ => hbud1 i, fun hout => absurd rfl hout⟩
        | some call =>
          by_cases hguard : call.id = j ∧ call.started = false
          · simp only [fireRing, hg, ha, if_true]
            rw [hr]
            simp only [hac, if_pos hguard]
            refine ⟨by trivial, ?_, ?_, ?_⟩
            · intro i h1
              have hji : j ≠ i := by
                intro hji
                subst hji
                rw [hg] at h1
                cases h1
              show getA i (scheduleRingResend j e.roomKey
                (updA j { e with armed := false } st.ringTimers)) = none
              rw [getA_schedule_ne hji]
              exact hconsume i h1
            · intro i hni
              have hji : j ≠ i := by
                intro hji
                exact hni ⟨hji, by simp⟩
              show budgetT (scheduleRingResend j e.roomKey
                  (updA j { e with armed := false } st.ringTimers)) st.nextId i ≤
                budgetT st.ringTimers st.nextId i
              unfold budgetT
              rw [getA_schedule_ne hji, getA_updA_ne hji]
            · intro _
              show budgetT (scheduleRingResend j e.roomKey
                  (updA j { e with armed := false } st.ringTimers)) st.nextId j + 1 ≤
                budgetT st.ringTimers st.nextId j
              have h6 := hte.2.1
              have h1e := hte.2.2 ha
              unfold scheduleRingResend
              rw [getA_updA_self]
              simp only [Option.getD_some]
              by_cases hmax : RING_RETRY_MAX ≤ ({ e with armed := false } : RingEntry).tries
              · rw [if_pos hmax]
                unfold budgetT
                rw [getA_updA_self, hg]
                simp only [ha, if_true, Bool.false_eq_true, if_false]
                simp [RING_RETRY_MAX] at h6 ⊢
                omega
              · rw [if_neg hmax]
                unfold budgetT
                rw [getA_updA_self, hg]
                simp only [ha, if_true]
                simp [RING_RETRY_MAX] at h6 ⊢
                omega
          · simp only [fireRing, hg, ha, if_true]
            rw [hr]
            simp only [hac, if_neg hguard]
            exact ⟨by trivial, hconsume, fun i _ => hbud1 i, fun hout => absurd rfl hout⟩
    · have ha' : e.armed = false := by
        cases harm : e.armed
        · rfl
        · exact absurd harm ha
      simp only [fireRing, hg, ha']
      exact ⟨by trivial, fun i h1 => h1, fun i _ => le_refl _, fun hout => absurd rfl hout⟩

theorem effFires_le_budget (evs : List Event) :
    ∀ st i, Inv st → effFires st evs i ≤ budget st i := by
  induction evs with
  | nil =>
    intro st i h
    simp [effFires]
  | cons ev rest ih =>
    intro st i h
    have h' := inv_step st ev h
    cases ev with
    | msg ws m =>
      simp only [effFires]
      exact le_trans (ih _ i h') ((handle_ok st ws m h).2.1 i)
    | disconnect ws =>
      simp only [effFires]
      exact le_trans (ih _ i h') ((leave_ok st ws h).2.1 i)
    | timerFire j =>
      simp only [effFires]
      by_cases hcase : j = i ∧ (step st (Event.timerFire j)).2 ≠ []
      · rw [if_pos hcase]
        obtain ⟨hji, hout⟩ := hcase
        subst hji
        have heff := (fire_ok st j h).2.2.2 hout
        exact le_trans (Nat.add_le_add_right (ih _ j h') 1) heff
      · rw [if_neg hcase]
        exact le_trans (ih _ i h') ((fire_ok st j h).2.2.1 i hcase)

theorem effFires_dead (evs : List Event) :
    ∀ st i, Inv st → getA i st.ringTimers = none → i < st.nextId →
      effFires st evs i = 0 := by
  induction evs with
  | nil =>
    intro st i _ _ _
    simp [effFires]
  | cons ev rest ih =>
    intro st i h h1 h2
    have h' := inv_step st ev h
    cases ev with
    | msg ws m =>
      simp only [effFires]
      have hok := handle_ok st ws m h
      exact ih _ i h' (hok.2.2 i h1 h2) (lt_of_lt_of_le h2 hok.1)
    | disconnect ws =>
      simp only [effFires]
      have hok := leave_ok st ws h
      exact ih _ i h' (hok.2.2 i h1) (hok.1 ▸ h2)
    | timerFire j =>
      simp only [effFires]
      by_cases hji : j = i
      · subst hji
        have hfd := fireRing_dead st j h1
        have hout : (step st (Event.timerFire j)).2 = [] := by
          show (fireRing st j).2 = []
          rw [hfd]
        rw [if_neg (fun hcase => hcase.2 hout)]
        have hst : (step st (Event.timerFire j)).1 = st := by
          show (fireRing st j).1 = st
          rw [hfd]
        rw [hst]
        exact ih st j h h1 h2
      · rw [if_neg (fun hcase => hji hcase.1)]
        have hok := fire_ok st j h
        exact ih _ i h' (hok.2.1 i h1) (hok.1 ▸ h2)

theorem fireRing_frame (st : ServerState) (j : Nat) :
    ((fireRing st j).1).rooms = st.rooms ∧ ((fireRing st j).1).metas = st.metas ∧
    ((fireRing st j).1).nextId = st.nextId := by
  cases hg : getA j st.ringTimers with
  | none =>
    simp only [fireRing, hg]
    exact ⟨by trivial, by trivial, by trivial⟩
  | some e =>
    by_cases ha : e.armed = true
    · cases hr : getA e.roomKey st.rooms with
      | none =>
        simp only [fireRing, hg, ha, if_true]
        rw [hr]
        exact ⟨by trivial, by trivial, by trivial⟩
      | some r =>
        cases hac : r.activeCall with
        | none =>
          simp only [fireRing, hg, ha, if_true]
          rw [hr]
          simp only [hac]
          exact ⟨by trivial, by trivial, by trivial⟩
        | some call =>
          by_cases hguard : call.id = j ∧ call.started = false
          · simp only [fireRing, hg, ha, if_true]
            rw [hr]
            simp only [hac, if_pos hguard]
            exact ⟨by trivial, by trivial, by trivial⟩
          · simp only [fireRing, hg, ha, if_true]
            rw [hr]
            simp only [hac, if_neg hguard]
            exact ⟨by trivial, by trivial, by trivial⟩
    · have ha' : e.armed = false := by
        cases harm : e.armed
        · rfl
        · exact absurd harm ha
      simp only [fireRing, hg, ha']
      exact ⟨by trivial, by trivial, by trivial⟩

theorem fireRing_guard (st : ServerState) (j : Nat) (hout : (fireRing st j).2 ≠ []) :
    ∃ e r call, getA j st.ringTimers = some e ∧ e.armed = true ∧
      getA e.roomKey st.rooms = some r ∧ r.activeCall = some call ∧
      call.id = j ∧ call.started = false ∧
      (fireRing st j).2 =
        [(call.callee, SFrame.ring call.id (strOr (getMeta st call.caller).name "peer"))] := by
  cases hg : getA j st.ringTimers with
  | none =>
    rw [fireRing_dead st j hg] at hout
    exact absurd rfl hout
  | some e =>
    by_cases ha : e.armed = true
    · cases hr : getA e.roomKey st.rooms with
      | none =>
        simp only [fireRing, hg, ha, if_true] at hout
        rw [hr] at hout
        exact absurd rfl hout
      | some r =>
        cases hac : r.activeCall with
        | none =>
          simp only [fireRing, hg, ha, if_true] at hout
          rw [hr] at hout
          simp only [hac] at hout
          exact absurd rfl hout
        | some call =>
          by_cases hguard : call.id = j ∧ call.started = false
          · refine ⟨e, r, call, rfl, ha, hr, hac, hguard.1, hguard.2, ?_⟩
            simp only [fireRing, hg, ha, if_true]
            rw [hr]
            simp only [hac, if_pos hguard]
          · simp only [fireRing, hg, ha, if_true] at hout
            rw [hr] at hout
            simp only [hac, if_neg hguard] at hout
            exact absurd rfl hout
    · have ha' : e.armed = false := by
        cases harm : e.armed
        · rfl
        · exact absurd harm ha
      simp only [fireRing, hg, ha'] at hout
      exact absurd rfl hout

theorem activeIdOf_eq {st : ServerState} {k : String} {r : Room} {c : Call}
    (hr : getA k st.rooms = some r) (hc : r.activeCall = some c) :
    activeIdOf st k = some c.id := by
  simp [activeIdOf, hr, hc]

theorem reach_stConn : Reach stConn := by
  have h1 := Reach.next (Event.msg 1 (CFrame.join (some "r") (some "alice"))) Reach.init
  have h2 := Reach.next (Event.msg 2 (CFrame.join (some "r") (some "bob"))) h1
  have h3 := Reach.next (Event.msg 1 CFrame.invite) h2
  have h4 := Reach.next (Event.msg 2 (CFrame.accept (some 0))) h3
  have heq : (step (step (step (step initState
      (Event.msg 1 (CFrame.join (some "r") (some "alice")))).1
      (Event.msg 2 (CFrame.join (some "r") (some "bob")))).1
      (Event.msg 1 CFrame.invite)).1
      (Event.msg 2 (CFrame.accept (some 0)))).1 = stConn := by decide
  rwa [heq] at h4

theorem leaveRoom_vacate (st : ServerState) (ws : ConnId) (k : String) (r : Room) (c : Call)
    (hcall : CallInv st)
    (hr : getA k st.rooms = some r) (hc : r.activeCall = some c)
    (hchange : activeIdOf (leaveRoom st ws).1 k ≠ some c.id) :
    ∀ m2 ∈ r.members, m2 ≠ ws → (m2, SFrame.endF c.id "left") ∈ (leaveRoom st ws).2 := by
  cases hg : truthy (getMeta st ws).room with
  | none =>
    exfalso
    apply hchange
    simp only [leaveRoom, hg]
    exact activeIdOf_eq hr hc
  | some rk =>
    cases hrm : getA rk st.rooms with
    | none =>
      exfalso
      apply hchange
      simp only [leaveRoom, hg, hrm]
      exact activeIdOf_eq hr hc
    | some r2 =>
      by_cases hkk : rk = k
      · subst hkk
        rw [hr] at hrm
        cases hrm
        cases hac2 : r.activeCall with
        | none =>
          rw [hac2] at hc
          cases hc
        | some call =>
          rw [hac2] at hc
          cases hc
          by_cases hp : ws = c.caller ∨ ws = c.callee
          · intro m2 hm2 hne2
            have hout : (leaveRoom st ws).2 =
                (r.members.filter (fun m => m ≠ ws)).map
                  (fun x => (x, SFrame.endF c.id "left")) := by
              by_cases hnil : r.members.filter (fun m => m ≠ ws) = []
              · simp only [leaveRoom, hg, hr, hac2, if_pos hp, clearActiveCall,
                  stopRingResend, if_pos hnil]
              · simp only [leaveRoom, hg, hr, hac2, if_pos hp, clearActiveCall,
                  stopRingResend, if_neg hnil]
            rw [hout]
            have hmf : m2 ∈ r.members.filter (fun m => m ≠ ws) :=
              List.mem_filter.2 ⟨hm2, by simp [hne2]⟩
            exact List.mem_map_of_mem _ hmf
          · exfalso
            apply hchange
            have hcallee := (hcall rk r c hr hac2).1
            have hnec : c.callee ≠ ws := fun hh => hp (Or.inr hh.symm)
            have hmf : c.callee ∈ r.members.filter (fun m => m ≠ ws) :=
              List.mem_filter.2 ⟨hcallee, by simp [hnec]⟩
            have hnil : ¬ r.members.filter (fun m => m ≠ ws) = [] := by
              intro hh
              rw [hh] at hmf
              simp at hmf
            have hstep : (leaveRoom st ws).1 =
                { st with rooms := updA rk { r with members := r.members.filter (fun m => m ≠ ws) } st.rooms } := by
              simp only [leaveRoom, hg, hr, hac2, if_neg hp, if_neg hnil]
            rw [hstep]
            exact activeIdOf_eq (getA_updA_self _ _ _) hac2
      · exfalso
        apply hchange
        have hrooms_eq : getA k ((leaveRoom st ws).1).rooms = getA k st.rooms := by
          cases hac2 : r2.activeCall with
          | none =>
            by_cases hnil : r2.members.filter (fun m => m ≠ ws) = []
            · simp only [leaveRoom, hg, hrm, hac2, if_pos hnil]
              exact getA_delA_ne hkk _
            · simp only [leaveRoom, hg, hrm, hac2, if_neg hnil]
              exact getA_updA_ne hkk _ _
          | some call2 =>
            by_cases hp : ws = call2.caller ∨ ws = call2.callee
            · by_cases hnil : r2.members.filter (fun m => m ≠ ws) = []
              · simp only [leaveRoom, hg, hrm, hac2, if_pos hp, clearActiveCall,
                  stopRingResend, if_pos hnil]
                exact getA_delA_ne hkk _
              · simp only [leaveRoom, hg, hrm, hac2, if_pos hp, clearActiveCall,
                  stopRingResend, if_neg hnil]
                exact getA_updA_ne hkk _ _
            · by_cases hnil : r2.members.filter (fun m => m ≠ ws) = []
              · simp only [leaveRoom, hg, hrm, hac2, if_neg hp, if_pos hnil]
                exact getA_delA_ne hkk _
              · simp only [leaveRoom, hg, hrm, hac2, if_neg hp, if_neg hnil]
                exact getA_updA_ne hkk _ _
        exact activeIdOf_eq (by rw [hrooms_eq]; exact hr) hc

theorem relayOrBuffer_activeId (st : ServerState) (rk : String) (r2 : Room) (ws2 : ConnId)
    (cid : Option Nat) (mk : Nat → SFrame) (k : String) (r : Room) (c : Call)
    (hrr : getA rk st.rooms = some r2)
    (hr : getA k st.rooms = some r) (hc : r.activeCall = some c) :
    activeIdOf (relayOrBuffer st rk r2 ws2 cid mk).1 k = some c.id := by
  cases hac2 : r2.activeCall with
  | none =>
    simp only [relayOrBuffer, hac2]
    exact activeIdOf_eq hr hc
  | some c0 =>
    by_cases hid : cid = some c0.id
    · by_cases hs : c0.started = true
      · simp only [relayOrBuffer, hac2, if_pos hid, if_pos hs]
        exact activeIdOf_eq hr hc
      · simp only [relayOrBuffer, hac2, if_pos hid, if_neg hs]
        by_cases hkk : rk = k
        · subst hkk
          rw [hr] at hrr
          cases hrr
          rw [hac2] at hc
          cases hc
          simp [activeIdOf, getA_updA_self]
        · exact activeIdOf_eq (by rw [getA_updA_ne hkk]; exact hr) hc
    · simp only [relayOrBuffer, hac2, if_neg hid]
      exact activeIdOf_eq hr hc

/-! ### Claim theorems -/

/-- C1: while the active call is RINGING, an offer/answer/ice frame carrying
its call id from a participant is enqueued on the Pending queue (appended in
arrival order) tagged with the other participant as destination, and `accept`
emits `start` to caller and callee first and then delivers every pending
frame in FIFO order to its tagged destination, leaving the queue empty. -/
theorem spec_c1_prestart_buffer_and_flush (st : ServerState) (ws : ConnId) (k : String)
    (r : Room) (c : Call) (s cand : String)
    (hk : truthy (getMeta st ws).room = some k)
    (hr : getA k st.rooms = some r)
    (hc : r.activeCall = some c)
    (hs : c.started = false)
    (hp : ws = c.caller ∨ ws = c.callee) :
    (step st (Event.msg ws (CFrame.offer (some c.id) s)) =
      ({ st with
          rooms := updA k (withCall r (some (pushPending c ⟨otherPeer c ws, SFrame.offer c.id s⟩))) st.rooms },
       []) ∧
     step st (Event.msg ws (CFrame.answer (some c.id) s)) =
      ({ st with
          rooms := updA k (withCall r (some (pushPending c ⟨otherPeer c ws, SFrame.answer c.id s⟩))) st.rooms },
       []) ∧
     step st (Event.msg ws (CFrame.ice (some c.id) cand)) =
      ({ st with
          rooms := updA k (withCall r (some (pushPending c ⟨otherPeer c ws, SFrame.ice c.id cand⟩))) st.rooms },
       [])) ∧
    (∀ ws2, truthy (getMeta st ws2).room = some k →
      step st (Event.msg ws2 (CFrame.accept (some c.id))) =
        ({ st with
            rooms := updA k (withCall r (some (startedCall c))) st.rooms,
            ringTimers := delA c.id st.ringTimers },
         (c.caller, SFrame.start c.id "initiator") ::
         (c.callee, SFrame.start c.id "callee") ::
         c.pending.map (fun p => (p.dest, p.frame)))) := by
  refine ⟨⟨?_, ?_, ?_⟩, ?_⟩
  · simp [step, handleMessage, relayOrBuffer, withCall, pushPending, hk, hr, hc, hs]
  · simp [step, handleMessage, relayOrBuffer, withCall, pushPending, hk, hr, hc, hs]
  · simp [step, handleMessage, relayOrBuffer, withCall, pushPending, hk, hr, hc, hs]
  · intro ws2 hk2
    simp [step, handleMessage, stopRingResend, withCall, startedCall, hk2, hr, hc]

/-- C1 witness: in the concrete ringing state with one buffered offer, the
callee's accept emits the two `start` frames and then the buffered offer. -/
theorem spec_c1_witness :
    step stRinging (Event.msg 2 (CFrame.accept (some 0))) =
      ({ stRinging with
          rooms := updA "r" (withCall roomRinging (some (startedCall callRinging))) stRinging.rooms,
          ringTimers := delA 0 stRinging.ringTimers },
       [(1, SFrame.start 0 "initiator"), (2, SFrame.start 0 "callee"),
        (2, SFrame.offer 0 "sdpA")]) := by
  have h := spec_c1_prestart_buffer_and_flush stRinging 1 "r" roomRinging callRinging
    "x" "y" (by decide) rfl rfl rfl (Or.inl rfl)
  exact h.2 2 (by decide)

/-- C5: a ring-ack, accept, decline, hangup, offer, answer or ice frame from
a room member whose `call_id` does not match the current active call
(including when there is no active call) is dropped silently: no frame is
sent and the state is unchanged. -/
theorem spec_c5_stale_call_id_drop (st : ServerState) (ws : ConnId) (k : String)
    (r : Room) (cid : Option Nat) (s1 s2 : String)
    (hk : truthy (getMeta st ws).room = some k)
    (hr : getA k st.rooms = some r)
    (hmem : ws ∈ r.members)
    (hstale : ∀ c, r.activeCall = some c → cid ≠ some c.id) :
    ∀ m ∈ [CFrame.ringAck cid, CFrame.accept cid, CFrame.decline cid, CFrame.hangup cid,
           CFrame.offer cid s1, CFrame.answer cid s1, CFrame.ice cid s2],
      step st (Event.msg ws m) = (st, []) := by
  intro m hm
  cases hac : r.activeCall with
  | none =>
    fin_cases hm <;> simp [step, handleMessage, relayOrBuffer, hk, hr, hac]
  | some c =>
    have hne := hstale c hac
    fin_cases hm <;> simp [step, handleMessage, relayOrBuffer, hk, hr, hac, hne]

/-- C5 witness: a hangup naming a stale call id in the concrete connected
state is silently dropped. -/
theorem spec_c5_witness :
    step stConn (Event.msg 1 (CFrame.hangup (some 5))) = (stConn, []) := by
  have h := spec_c5_stale_call_id_drop stConn 1 "r" roomConn
    (some 5) "x" "y" (by decide) rfl (by decide)
    (fun c hcx => by cases hcx; decide)
  exact h (CFrame.hangup (some 5)) (by simp)

/-- C7: an invite from a room member when no call is active replies
`busy{no-peer}` and changes nothing when the sender is the only member;
otherwise it installs a RINGING call with the fresh id `st.nextId`, caller
the sender and callee the first other member, and sends `invite-ok` to the
caller before `ring` to the callee. -/
theorem spec_c7_invite (st : ServerState) (ws : ConnId) (k : String) (r : Room)
    (hk : truthy (getMeta st ws).room = some k)
    (hr : getA k st.rooms = some r)
    (hc : r.activeCall = none) :
    (r.members.find? (fun x => x ≠ ws) = none →
      step st (Event.msg ws CFrame.invite) = (st, [(ws, SFrame.busy "no-peer")])) ∧
    (∀ callee, r.members.find? (fun x => x ≠ ws) = some callee →
      callee ∈ r.members ∧ callee ≠ ws ∧
      step st (Event.msg ws CFrame.invite) =
        ({ st with
            rooms := updA k (withCall r (some
              { id := st.nextId, caller := ws, callee := callee,
                started := false, state := "RINGING", pending := [] })) st.rooms,
            ringTimers := scheduleRingResend st.nextId k st.ringTimers,
            nextId := st.nextId + 1 },
         [(ws, SFrame.inviteOk st.nextId),
          (callee, SFrame.ring st.nextId (strOr (getMeta st ws).name "peer"))])) := by
  constructor
  · intro hf
    simp only [step, handleMessage, hk, hr, hc, hf]
  · intro callee hf
    have hmem := List.mem_of_find?_eq_some hf
    have hne := List.find?_some hf
    simp only [ne_eq, decide_not, Bool.not_eq_eq_eq_not, Bool.not_true,
      decide_eq_false_iff_not] at hne
    exact ⟨hmem, hne, by simp only [step, handleMessage, withCall, hk, hr, hc, hf]⟩

/-- C7 witness: in a one-member room an invite replies `busy{no-peer}` and
leaves the state unchanged. -/
theorem spec_c7_witness :
    step stAlice (Event.msg 1 CFrame.invite) = (stAlice, [(1, SFrame.busy "no-peer")]) := by
  have h := spec_c7_invite stAlice 1 "r1" { members := [1], activeCall := none }
    (by decide) rfl rfl
  exact h.1 (by decide)

/-- C10: accept, decline and hangup only require the sender to resolve to
the room and the frame to carry the active call's id - the sender need not
be the callee nor a call participant.  Any member of the room with the
matching id makes accept mark the call started and send `start` to both
participants, and makes decline/hangup end the call for everyone. -/
theorem spec_c10_any_member_controls_call (st : ServerState) (ws : ConnId) (k : String)
    (r : Room) (c : Call) (cid : Option Nat)
    (hk : truthy (getMeta st ws).room = some k)
    (hr : getA k st.rooms = some r)
    (hmem : ws ∈ r.members)
    (hc : r.activeCall = some c)
    (hid : cid = some c.id) :
    (step st (Event.msg ws (CFrame.accept cid)) =
      ({ st with
          rooms := updA k (withCall r (some (startedCall c))) st.rooms,
          ringTimers := delA c.id st.ringTimers },
       (c.caller, SFrame.start c.id "initiator") ::
       (c.callee, SFrame.start c.id "callee") ::
       c.pending.map (fun p => (p.dest, p.frame)))) ∧
    (step st (Event.msg ws (CFrame.decline cid)) =
      ({ st with
          rooms := updA k (withCall r none) st.rooms,
          ringTimers := delA c.id st.ringTimers },
       r.members.map (fun m2 => (m2, SFrame.endF c.id "declined")))) ∧
    (step st (Event.msg ws (CFrame.hangup cid)) =
      ({ st with
          rooms := updA k (withCall r none) st.rooms,
          ringTimers := delA c.id st.ringTimers },
       r.members.map (fun m2 => (m2, SFrame.endF c.id "hangup")))) := by
  subst hid
  refine ⟨?_, ?_, ?_⟩
  · simp [step, handleMessage, stopRingResend, withCall, startedCall, hk, hr, hc]
  · simp [step, handleMessage, clearActiveCall, stopRingResend, withCall, hk, hr, hc]
  · simp [step, handleMessage, clearActiveCall, stopRingResend, withCall, hk, hr, hc]

/-- C10 witness: the caller itself (not the callee) hangs up the ringing
call it initiated; the call ends for both members. -/
theorem spec_c10_witness :
    step stRinging (Event.msg 1 (CFrame.hangup (some 0))) =
      ({ stRinging with
          rooms := updA "r" (withCall roomRinging none) stRinging.rooms,
          ringTimers := delA 0 stRinging.ringTimers },
       [(1, SFrame.endF 0 "hangup"), (2, SFrame.endF 0 "hangup")]) := by
  have h := spec_c10_any_member_controls_call stRinging 1 "r" roomRinging callRinging
    (some 0) (by decide) rfl (by decide) rfl rfl
  exact h.2.2

/-- C3 counterexample: when the callee's channel closes during a started
call, the server emits only the `end{left}` frame to the remaining member;
no `peer-left` frame is broadcast, contrary to the claim. -/
theorem spec_c3_counterexample :
    (step stConn (Event.disconnect 2)).2 = [(1, SFrame.endF 0 "left")] := by
  decide

/-- C3 amended: leaving (explicit leave, channel close/error or supervisor
termination) with the leaver a call participant ends the call with reason
`"left"`, sends `end{call_id, "left"}` to each remaining member - but no
`peer-left` is broadcast - and removes the room from the registry when the
member set becomes empty; reachable registries never hold an empty room. -/
theorem spec_c3_leave_ends_call_amended (st : ServerState) (ws : ConnId) (k : String)
    (r : Room) (c : Call)
    (hk : truthy (getMeta st ws).room = some k)
    (hr : getA k st.rooms = some r)
    (hc : r.activeCall = some c)
    (hp : ws = c.caller ∨ ws = c.callee) :
    (step st (Event.disconnect ws) =
      ({ st with
          rooms := if r.members.filter (fun m => m ≠ ws) = [] then delA k st.rooms
                   else updA k (leftRoom r ws) st.rooms,
          ringTimers := delA c.id st.ringTimers },
       (r.members.filter (fun m => m ≠ ws)).map (fun m2 => (m2, SFrame.endF c.id "left")))) ∧
    (∀ st2, Reach st2 → ∀ k2 r2, getA k2 st2.rooms = some r2 → r2.members ≠ []) := by
  constructor
  · simp only [step, leaveRoom, hk, hr]
    simp only [hc, if_pos hp, clearActiveCall, stopRingResend, leftRoom]
  · intro st2 hre k2 r2 h2
    exact (reach_inv hre).1 k2 r2 h2

/-- C3 amended witness: the caller leaves the two-member connected room;
the callee gets `end{0, left}` and the room keeps only the callee. -/
theorem spec_c3_witness :
    step stConn (Event.disconnect 1) =
      ({ stConn with
          rooms := updA "r" (leftRoom roomConn 1) stConn.rooms,
          ringTimers := delA 0 stConn.ringTimers },
       [(2, SFrame.endF 0 "left")]) := by
  have h := spec_c3_leave_ends_call_amended stConn 1 "r" roomConn callConn
    (by decide) rfl rfl (Or.inl rfl)
  have h1 := h.1
  rw [if_neg (by decide)] at h1
  exact h1

/-- C6 counterexample: joining room `r1` as `alice` while connection 1
already holds that name leaves two members named `alice`; nothing is
evicted or closed, contrary to the claim. -/
theorem spec_c6_counterexample :
    countNamed ((step stAlice (Event.msg 2 (CFrame.join (some "r1") (some "alice")))).1)
      "r1" "alice" = 2 := by
  decide

/-- C6 amended: in the call-id flow a join admits the connection without
evicting or closing anyone: the room's member set only gains the joiner,
the only frame sent is `room-state` to the joiner, and every other
connection's metadata is untouched, so several members may share a name. -/
theorem spec_c6_join_no_eviction_amended (st : ServerState) (ws : ConnId)
    (room name : Option String) :
    membersOf ((step st (Event.msg ws (CFrame.join room name))).1) (strOr room "default") =
      addMember (membersOf st (strOr room "default")) ws ∧
    (∃ peers, (step st (Event.msg ws (CFrame.join room name))).2 =
      [(ws, SFrame.roomState (strOr room "default") peers)]) ∧
    (∀ w, w ≠ ws → getMeta ((step st (Event.msg ws (CFrame.join room name))).1) w =
      getMeta st w) := by
  refine ⟨?_, ⟨_, rfl⟩, ?_⟩
  · cases hd : getA (strOr room "default") st.rooms with
    | none => simp [step, handleMessage, membersOf, hd, getA_updA_self]
    | some r0 => simp [step, handleMessage, membersOf, hd, getA_updA_self]
  · intro w hw
    have hne : ws ≠ w := fun hh => hw hh.symm
    simp [step, handleMessage, getMeta, getA_updA_ne hne]

/-- C6 amended witness: the duplicate-name join keeps member 1 and its
metadata while admitting connection 2 under the same name. -/
theorem spec_c6_witness :
    membersOf ((step stAlice (Event.msg 2 (CFrame.join (some "r1") (some "alice")))).1) "r1" =
      addMember (membersOf stAlice "r1") 2 ∧
    getMeta ((step stAlice (Event.msg 2 (CFrame.join (some "r1") (some "alice")))).1) 1 =
      getMeta stAlice 1 := by
  have h := spec_c6_join_no_eviction_amended stAlice 2 (some "r1") (some "alice")
  exact ⟨h.1, h.2.2 1 (by decide)⟩

/-- C8 counterexample: connection 1 joins room `a` and then room `b`; it
remains in `a`'s member set while also being in `b`'s, so a connection can
be a member of two rooms at once, contrary to the claim. -/
theorem spec_c8_counterexample :
    1 ∈ membersOf (run initState
      [Event.msg 1 (CFrame.join (some "a") (some "x")),
       Event.msg 1 (CFrame.join (some "b") (some "x"))]) "a" ∧
    1 ∈ membersOf (run initState
      [Event.msg 1 (CFrame.join (some "a") (some "x")),
       Event.msg 1 (CFrame.join (some "b") (some "x"))]) "b" := by
  decide

/-- C8 amended: a join into a different room does not remove the connection
from its previous room's member set: afterwards the connection belongs to
both member sets, while its metadata points at the new room only. -/
theorem spec_c8_join_keeps_old_membership_amended (st : ServerState) (ws : ConnId)
    (k : String) (r : Room) (room name : Option String)
    (hr : getA k st.rooms = some r)
    (hmem : ws ∈ r.members)
    (hne : strOr room "default" ≠ k) :
    ws ∈ membersOf ((step st (Event.msg ws (CFrame.join room name))).1) k ∧
    ws ∈ membersOf ((step st (Event.msg ws (CFrame.join room name))).1) (strOr room "default") ∧
    (getMeta ((step st (Event.msg ws (CFrame.join room name))).1) ws).room =
      some (strOr room "default") := by
  refine ⟨?_, ?_, ?_⟩
  · simp [step, handleMessage, membersOf, getA_updA_ne hne, hr]
    exact hmem
  · simp [step, handleMessage, membersOf, getA_updA_self]
    exact mem_addMember_self _ ws
  · simp [step, handleMessage, getMeta, getA_updA_self]

/-- C8 amended witness: connection 1, a member of `r1`, joins `b`; it is
then a member of both `r1` and `b`. -/
theorem spec_c8_witness :
    1 ∈ membersOf ((step stAlice (Event.msg 1 (CFrame.join (some "b") (some "x")))).1) "r1" ∧
    1 ∈ membersOf ((step stAlice (Event.msg 1 (CFrame.join (some "b") (some "x")))).1) "b" := by
  have h := spec_c8_join_keeps_old_membership_amended stAlice 1 "r1"
    { members := [1], activeCall := none } (some "b") (some "x") rfl (by decide) (by decide)
  exact ⟨h.1, h.2.1⟩

/-- C9 counterexample: a `leave-room` from a connection that is not in any
room is answered with `error{not in room}`, not with the `left` reply the
claim requires. -/
theorem spec_c9_counterexample :
    step initState (Event.msg 1 CFrame.leaveRoom) =
      (initState, [(1, SFrame.errorF "not in room")]) := by
  decide

/-- C9 amended: `leave-room` is idempotent on the server state, but the
call-id flow never replies `left`: a member's leave produces only the
`end` frames of a cleared call (none to the sender), and a connection whose
metadata does not resolve to an existing room gets `error{not in room}`. -/
theorem spec_c9_leave_room_amended (st : ServerState) (ws : ConnId) :
    ((step (step st (Event.msg ws CFrame.leaveRoom)).1 (Event.msg ws CFrame.leaveRoom)).1 =
      (step st (Event.msg ws CFrame.leaveRoom)).1) ∧
    (∀ p ∈ (step st (Event.msg ws CFrame.leaveRoom)).2, p.2 ≠ SFrame.leftF) ∧
    (truthy (getMeta st ws).room = none →
      step st (Event.msg ws CFrame.leaveRoom) = (st, [(ws, SFrame.errorF "not in room")])) ∧
    (∀ k, truthy (getMeta st ws).room = some k → getA k st.rooms = none →
      step st (Event.msg ws CFrame.leaveRoom) = (st, [(ws, SFrame.errorF "not in room")])) := by
  cases hg : truthy (getMeta st ws).room with
  | none =>
    have h1 : step st (Event.msg ws CFrame.leaveRoom) =
        (st, [(ws, SFrame.errorF "not in room")]) := by
      simp only [step, handleMessage, hg]
    refine ⟨?_, ?_, fun _ => h1, ?_⟩
    · rw [h1]
      exact congrArg Prod.fst h1
    · intro p hp
      rw [h1] at hp
      simp only [List.mem_singleton] at hp
      subst hp
      simp
    · intro k hk2
      cases hk2
  | some roomKey =>
    cases hrm : getA roomKey st.rooms with
    | none =>
      have h1 : step st (Event.msg ws CFrame.leaveRoom) =
          (st, [(ws, SFrame.errorF "not in room")]) := by
        simp only [step, handleMessage, hg, hrm]
      refine ⟨?_, ?_, ?_, ?_⟩
      · rw [h1]
        exact congrArg Prod.fst h1
      · intro p hp
        rw [h1] at hp
        simp only [List.mem_singleton] at hp
        subst hp
        simp
      · intro h0
        cases h0
      · intro k hk2 hrm2
        cases hk2
        exact h1
    | some r =>
      have h1 : step st (Event.msg ws CFrame.leaveRoom) = leaveRoom st ws := by
        simp only [step, handleMessage, hg, hrm]
      refine ⟨?idem, ?noleft, ?c3, ?c4⟩
      case c3 =>
        intro h0
        cases h0
      case c4 =>
        intro k hk2 hrm2
        cases hk2
        rw [hrm] at hrm2
        cases hrm2
      case idem =>
        rw [h1]
        cases hac : r.activeCall with
        | none =>
          by_cases hnil : r.members.filter (fun m => m ≠ ws) = []
          · have h2 : leaveRoom st ws = ({ st with rooms := delA roomKey st.rooms }, []) := by
              simp only [leaveRoom, hg, hrm, hac, if_pos hnil]
            simp only [h2]
            have hg1 : truthy (getMeta ({ st with rooms := delA roomKey st.rooms } : ServerState) ws).room = some roomKey := hg
            have h3 : step ({ st with rooms := delA roomKey st.rooms } : ServerState)
                (Event.msg ws CFrame.leaveRoom) =
                ({ st with rooms := delA roomKey st.rooms }, [(ws, SFrame.errorF "not in room")]) := by
              simp only [step, handleMessage, hg1, getA_delA_self]
            rw [h3]
          · have h2 : leaveRoom st ws =
                ({ st with rooms := updA roomKey { r with members := r.members.filter (fun m => m ≠ ws) } st.rooms }, []) := by
              simp only [leaveRoom, hg, hrm, hac, if_neg hnil]
            simp only [h2]
            have hg1 : truthy (getMeta ({ st with rooms := updA roomKey { r with members := r.members.filter (fun m => m ≠ ws) } st.rooms } : ServerState) ws).room = some roomKey := hg
            have h3 : step ({ st with rooms := updA roomKey { r with members := r.members.filter (fun m => m ≠ ws) } st.rooms } : ServerState)
                (Event.msg ws CFrame.leaveRoom) =
                ({ st with rooms := updA roomKey { r with members := r.members.filter (fun m => m ≠ ws) } st.rooms }, []) := by
              simp only [step, handleMessage, hg1, getA_updA_self, leaveRoom]
              simp only [filter_ne_idem, hac, if_neg hnil, updA_updA]
            rw [h3]
        | some call =>
          by_cases hp2 : ws = call.caller ∨ ws = call.callee
          · by_cases hnil : r.members.filter (fun m => m ≠ ws) = []
            · have h2 : leaveRoom st ws =
                  ({ st with rooms := delA roomKey st.rooms, ringTimers := delA call.id st.ringTimers },
                   (r.members.filter (fun m => m ≠ ws)).map (fun m2 => (m2, SFrame.endF call.id "left"))) := by
                simp only [leaveRoom, hg, hrm, hac, if_pos hp2, clearActiveCall, stopRingResend, if_pos hnil]
              simp only [h2]
              have hg1 : truthy (getMeta ({ st with rooms := delA roomKey st.rooms, ringTimers := delA call.id st.ringTimers } : ServerState) ws).room = some roomKey := hg
              have h3 : step ({ st with rooms := delA roomKey st.rooms, ringTimers := delA call.id st.ringTimers } : ServerState)
                  (Event.msg ws CFrame.leaveRoom) =
                  ({ st with rooms := delA roomKey st.rooms, ringTimers := delA call.id st.ringTimers }, [(ws, SFrame.errorF "not in room")]) := by
                simp only [step, handleMessage, hg1, getA_delA_self]
              rw [h3]
            · have h2 : leaveRoom st ws =
                  ({ st with rooms := updA roomKey { r with members := r.members.filter (fun m => m ≠ ws), activeCall := none } st.rooms, ringTimers := delA call.id st.ringTimers },
                   (r.members.filter (fun m => m ≠ ws)).map (fun m2 => (m2, SFrame.endF call.id "left"))) := by
                simp only [leaveRoom, hg, hrm, hac, if_pos hp2, clearActiveCall, stopRingResend, if_neg hnil]
              simp only [h2]
              have hg1 : truthy (getMeta ({ st with rooms := updA roomKey { r with members := r.members.filter (fun m => m ≠ ws), activeCall := none } st.rooms, ringTimers := delA call.id st.ringTimers } : ServerState) ws).room = some roomKey := hg
              have h3 : step ({ st with rooms := updA roomKey { r with members := r.members.filter (fun m => m ≠ ws), activeCall := none } st.rooms, ringTimers := delA call.id st.ringTimers } : ServerState)
                  (Event.msg ws CFrame.leaveRoom) =
                  ({ st with rooms := updA roomKey { r with members := r.members.filter (fun m => m ≠ ws), activeCall := none } st.rooms, ringTimers := delA call.id st.ringTimers }, []) := by
                simp only [step, handleMessage, hg1, getA_updA_self, leaveRoom]
                simp only [filter_ne_idem, if_neg hnil, updA_updA]
              rw [h3]
          · by_cases hnil : r.members.filter (fun m => m ≠ ws) = []
            · have h2 : leaveRoom st ws = ({ st with rooms := delA roomKey st.rooms }, []) := by
                simp only [leaveRoom, hg, hrm, hac, if_neg hp2, if_pos hnil]
              simp only [h2]
              have hg1 : truthy (getMeta ({ st with rooms := delA roomKey st.rooms } : ServerState) ws).room = some roomKey := hg
              have h3 : step ({ st with rooms := delA roomKey st.rooms } : ServerState)
                  (Event.msg ws CFrame.leaveRoom) =
                  ({ st with rooms := delA roomKey st.rooms }, [(ws, SFrame.errorF "not in room")]) := by
                simp only [step, handleMessage, hg1, getA_delA_self]
              rw [h3]
            · have h2 : leaveRoom st ws =
                  ({ st with rooms := updA roomKey { r with members := r.members.filter (fun m => m ≠ ws) } st.rooms }, []) := by
                simp only [leaveRoom, hg, hrm, hac, if_neg hp2, if_neg hnil]
              simp only [h2]
              have hg1 : truthy (getMeta ({ st with rooms := updA roomKey { r with members := r.members.filter (fun m => m ≠ ws) } st.rooms } : ServerState) ws).room = some roomKey := hg
              have h3 : step ({ st with rooms := updA roomKey { r with members := r.members.filter (fun m => m ≠ ws) } st.rooms } : ServerState)
                  (Event.msg ws CFrame.leaveRoom) =
                  ({ st with rooms := updA roomKey { r with members := r.members.filter (fun m => m ≠ ws) } st.rooms }, []) := by
                simp only [step, handleMessage, hg1, getA_updA_self, leaveRoom]
                simp only [filter_ne_idem, hac, if_neg hp2, if_neg hnil, updA_updA]
              rw [h3]
      case noleft =>
        rw [h1]
        intro p hp
        cases hac : r.activeCall with
        | none =>
          by_cases hnil : r.members.filter (fun m => m ≠ ws) = []
          · have h2 : leaveRoom st ws = ({ st with rooms := delA roomKey st.rooms }, []) := by
              simp only [leaveRoom, hg, hrm, hac, if_pos hnil]
            rw [h2] at hp
            simp at hp
          · have h2 : leaveRoom st ws =
                ({ st with rooms := updA roomKey { r with members := r.members.filter (fun m => m ≠ ws) } st.rooms }, []) := by
              simp only [leaveRoom, hg, hrm, hac, if_neg hnil]
            rw [h2] at hp
            simp at hp
        | some call =>
          by_cases hp2 : ws = call.caller ∨ ws = call.callee
          · have h2 : (leaveRoom st ws).2 =
                (r.members.filter (fun m => m ≠ ws)).map (fun m2 => (m2, SFrame.endF call.id "left")) := by
              by_cases hnil : r.members.filter (fun m => m ≠ ws) = []
              · simp only [leaveRoom, hg, hrm, hac, if_pos hp2, clearActiveCall, stopRingResend, if_pos hnil]
              · simp only [leaveRoom, hg, hrm, hac, if_pos hp2, clearActiveCall, stopRingResend, if_neg hnil]
            rw [h2] at hp
            simp only [List.mem_map] at hp
            obtain ⟨m2, hm2, rfl⟩ := hp
            simp
          · have h2 : (leaveRoom st ws).2 = [] := by
              by_cases hnil : r.members.filter (fun m => m ≠ ws) = []
              · simp only [leaveRoom, hg, hrm, hac, if_neg hp2, if_pos hnil]
              · simp only [leaveRoom, hg, hrm, hac, if_neg hp2, if_neg hnil]
            rw [h2] at hp
            simp at hp

/-- C4: the ring resend fires effectively at most `RING_RETRY_MAX` (6) times
per call id along any trace from process start; every effective fire passed
the re-check that the room's active call still exists with the same id and
is not started, and a fire touches no room, metadata or counter state;
ring-ack, accept, decline and hangup with the matching id, and a
participant's leave-room or disconnect, delete the timer entry; and from
any state satisfying the server invariant where the entry of an
already-issued id is gone, no later fire for it is ever effective. -/
theorem spec_c4_ring_resend_bounded :
    (∀ evs i, effFires initState evs i ≤ RING_RETRY_MAX) ∧
    (∀ st j, (fireRing st j).2 ≠ [] →
      ∃ e r call, getA j st.ringTimers = some e ∧ e.armed = true ∧
        getA e.roomKey st.rooms = some r ∧ r.activeCall = some call ∧
        call.id = j ∧ call.started = false ∧
        (fireRing st j).2 =
          [(call.callee, SFrame.ring call.id (strOr (getMeta st call.caller).name "peer"))]) ∧
    (∀ st j, ((fireRing st j).1).rooms = st.rooms ∧ ((fireRing st j).1).metas = st.metas ∧
      ((fireRing st j).1).nextId = st.nextId) ∧
    (∀ st ws k r c cid, truthy (getMeta st ws).room = some k → getA k st.rooms = some r →
      r.activeCall = some c → cid = some c.id →
      getA c.id (((step st (Event.msg ws (CFrame.ringAck cid))).1)).ringTimers = none ∧
      getA c.id (((step st (Event.msg ws (CFrame.accept cid))).1)).ringTimers = none ∧
      getA c.id (((step st (Event.msg ws (CFrame.decline cid))).1)).ringTimers = none ∧
      getA c.id (((step st (Event.msg ws (CFrame.hangup cid))).1)).ringTimers = none) ∧
    (∀ st ws k r c, truthy (getMeta st ws).room = some k → getA k st.rooms = some r →
      r.activeCall = some c → (ws = c.caller ∨ ws = c.callee) →
      getA c.id (((step st (Event.msg ws CFrame.leaveRoom)).1)).ringTimers = none ∧
      getA c.id (((step st (Event.disconnect ws)).1)).ringTimers = none) ∧
    (∀ st evs i, Inv st → getA i st.ringTimers = none → i < st.nextId →
      effFires st evs i = 0) := by
  refine ⟨?_, fireRing_guard, fireRing_frame, ?_, ?_,
    fun st evs i => effFires_dead evs st i⟩
  · intro evs i
    have h := effFires_le_budget evs initState i inv_init
    have hb : budget initState i = RING_RETRY_MAX := by
      simp [budget, budgetT, initState, getA]
    rw [hb] at h
    exact h
  · intro st ws k r c cid hk hr hc hid
    subst hid
    refine ⟨?_, ?_, ?_, ?_⟩
    · simp [step, handleMessage, hk, hr, hc, stopRingResend, getA_delA_self]
    · simp [step, handleMessage, hk, hr, hc, stopRingResend, getA_delA_self]
    · simp [step, handleMessage, hk, hr, hc, clearActiveCall, stopRingResend, getA_delA_self]
    · simp [step, handleMessage, hk, hr, hc, clearActiveCall, stopRingResend, getA_delA_self]
  · intro st ws k r c hk hr hc hp
    constructor
    · simp only [step, handleMessage, hk, hr, leaveRoom, hc, if_pos hp,
        clearActiveCall, stopRingResend]
      exact getA_delA_self _ _
    · simp only [step, leaveRoom, hk, hr, hc, if_pos hp, clearActiveCall, stopRingResend]
      exact getA_delA_self _ _

/-- C4 witness: the callee's ring-ack in the ringing state deletes the
armed timer entry, and a fire for a dead id in the connected state is not
effective. -/
theorem spec_c4_witness :
    getA 0 (((step stRinging (Event.msg 2 (CFrame.ringAck (some 0)))).1)).ringTimers = none ∧
    effFires stConn [Event.timerFire 0] 0 = 0 := by
  have h := spec_c4_ring_resend_bounded
  constructor
  · exact (h.2.2.2.1 stRinging 2 "r" roomRinging callRinging (some 0)
      (by decide) rfl rfl rfl).1
  · exact h.2.2.2.2.2 stConn [Event.timerFire 0] 0 (reach_inv reach_stConn) rfl (by decide)

/-- C9 witness: repeating leave-room from a room member does not change the
state further, and a connection outside any room gets the error reply. -/
theorem spec_c9_witness :
    ((step (step stConn (Event.msg 1 CFrame.leaveRoom)).1 (Event.msg 1 CFrame.leaveRoom)).1 =
      (step stConn (Event.msg 1 CFrame.leaveRoom)).1) ∧
    step stAlice (Event.msg 3 CFrame.leaveRoom) = (stAlice, [(3, SFrame.errorF "not in room")]) := by
  have h1 := spec_c9_leave_room_amended stConn 1
  have h2 := spec_c9_leave_room_amended stAlice 3
  exact ⟨h1.1, h2.2.2.1 (by decide)⟩

/-- C2: a room structurally holds at most one active (non-ENDED) call; an
invite from a member while the slot is occupied replies `busy{call-active}`
and changes nothing; and along any reachable execution, a step that makes
the room's active call id disappear broadcast `end{call_id, reason}` with
reason declined, hangup or left to every member other than the acting
connection, so the slot is vacated only by a transition to ENDED. -/
theorem spec_c2_single_active_call :
    (∀ (r : Room) (c1 c2 : Call), r.activeCall = some c1 → r.activeCall = some c2 → c1 = c2) ∧
    (∀ st ws k r, truthy (getMeta st ws).room = some k → getA k st.rooms = some r →
      r.activeCall.isSome = true →
      step st (Event.msg ws CFrame.invite) = (st, [(ws, SFrame.busy "call-active")])) ∧
    (∀ st ev k r c, Reach st → getA k st.rooms = some r → r.activeCall = some c →
      activeIdOf (step st ev).1 k ≠ some c.id →
      ∃ reason, (reason = "declined" ∨ reason = "hangup" ∨ reason = "left") ∧
        ∀ m2 ∈ r.members, m2 ≠ actor ev → (m2, SFrame.endF c.id reason) ∈ (step st ev).2) := by
  refine ⟨?_, ?_, ?_⟩
  · intro r c1 c2 h1 h2
    rw [h1] at h2
    cases h2
    rfl
  · intro st ws k r hk hr hsome
    cases hac : r.activeCall with
    | none =>
      rw [hac] at hsome
      simp at hsome
    | some c0 =>
      simp [step, handleMessage, hk, hr, hac]
  · intro st ev k r c hreach hr hc hchange
    have hcall := (reach_inv hreach).2.1
    cases ev with
    | timerFire j =>
      exfalso
      apply hchange
      refine activeIdOf_eq ?_ hc
      rw [show ((step st (Event.timerFire j)).1).rooms = st.rooms from (fireRing_frame st j).1]
      exact hr
    | disconnect ws2 =>
      exact ⟨"left", Or.inr (Or.inr rfl), leaveRoom_vacate st ws2 k r c hcall hr hc hchange⟩
    | msg ws2 m =>
      cases m with
      | join room name =>
        exfalso
        apply hchange
        by_cases hkk : strOr room "default" = k
        · subst hkk
          simp [step, handleMessage, activeIdOf, getA_updA_self, hr, hc]
        · simp [step, handleMessage, activeIdOf, getA_updA_ne hkk, hr, hc]
      | invite =>
        exfalso
        apply hchange
        cases hgg : truthy (getMeta st ws2).room with
        | none =>
          simp only [step, handleMessage, hgg]
          exact activeIdOf_eq hr hc
        | some rk =>
          cases hrr : getA rk st.rooms with
          | none =>
            simp only [step, handleMessage, hgg, hrr]
            exact activeIdOf_eq hr hc
          | some r2 =>
            cases hac2 : r2.activeCall with
            | some c0 =>
              simp only [step, handleMessage, hgg, hrr, hac2]
              exact activeIdOf_eq hr hc
            | none =>
              by_cases hkk : rk = k
              · subst hkk
                rw [hr] at hrr
                cases hrr
                rw [hac2] at hc
                cases hc
              · cases hf : r2.members.find? (fun x => x ≠ ws2) with
                | none =>
                  simp only [step, handleMessage, hgg, hrr, hac2, hf]
                  exact activeIdOf_eq hr hc
                | some callee =>
                  simp only [step, handleMessage, hgg, hrr, hac2, hf]
                  exact activeIdOf_eq (by rw [getA_updA_ne hkk]; exact hr) hc
      | ringAck cid =>
        exfalso
        apply hchange
        cases hgg : truthy (getMeta st ws2).room with
        | none =>
          simp only [step, handleMessage, hgg]
          exact activeIdOf_eq hr hc
        | some rk =>
          cases hrr : getA rk st.rooms with
          | none =>
            simp only [step, handleMessage, hgg, hrr]
            exact activeIdOf_eq hr hc
          | some r2 =>
            cases hac2 : r2.activeCall with
            | none =>
              simp only [step, handleMessage, hgg, hrr, hac2]
              exact activeIdOf_eq hr hc
            | some c0 =>
              by_cases hid : cid = some c0.id
              · simp only [step, handleMessage, hgg, hrr, hac2, if_pos hid]
                exact activeIdOf_eq hr hc
              · simp only [step, handleMessage, hgg, hrr, hac2, if_neg hid]
                exact activeIdOf_eq hr hc
      | accept cid =>
        exfalso
        apply hchange
        cases hgg : truthy (getMeta st ws2).room with
        | none =>
          simp only [step, handleMessage, hgg]
          exact activeIdOf_eq hr hc
        | some rk =>
          cases hrr : getA rk st.rooms with
          | none =>
            simp only [step, handleMessage, hgg, hrr]
            exact activeIdOf_eq hr hc
          | some r2 =>
            cases hac2 : r2.activeCall with
            | none =>
              simp only [step, handleMessage, hgg, hrr, hac2]
              exact activeIdOf_eq hr hc
            | some c0 =>
              by_cases hid : cid = some c0.id
              · by_cases hkk : rk = k
                · subst hkk
                  rw [hr] at hrr
                  cases hrr
                  rw [hac2] at hc
                  cases hc
                  simp only [step, handleMessage, hgg, hr, hac2, if_pos hid]
                  simp [activeIdOf, getA_updA_self]
                · simp only [step, handleMessage, hgg, hrr, hac2, if_pos hid]
                  exact activeIdOf_eq (by rw [getA_updA_ne hkk]; exact hr) hc
              · simp only [step, handleMessage, hgg, hrr, hac2, if_neg hid]
                exact activeIdOf_eq hr hc
      | decline cid =>
        cases hgg : truthy (getMeta st ws2).room with
        | none =>
          exfalso
          apply hchange
          simp only [step, handleMessage, hgg]
          exact activeIdOf_eq hr hc
        | some rk =>
          cases hrr : getA rk st.rooms with
          | none =>
            exfalso
            apply hchange
            simp only [step, handleMessage, hgg, hrr]
            exact activeIdOf_eq hr hc
          | some r2 =>
            cases hac2 : r2.activeCall with
            | none =>
              exfalso
              apply hchange
              simp only [step, handleMessage, hgg, hrr, hac2]
              exact activeIdOf_eq hr hc
            | some c0 =>
              by_cases hid : cid = some c0.id
              · by_cases hkk : rk = k
                · subst hkk
                  rw [hr] at hrr
                  cases hrr
                  rw [hac2] at hc
                  cases hc
                  refine ⟨"declined", Or.inl rfl, ?_⟩
                  intro m2 hm2 _
                  have hout : (step st (Event.msg ws2 (CFrame.decline cid))).2 =
                      r.members.map (fun x => (x, SFrame.endF c.id "declined")) := by
                    simp only [step, handleMessage, hgg, hr, hac2, if_pos hid,
                      clearActiveCall, stopRingResend]
                  rw [hout]
                  exact List.mem_map_of_mem _ hm2
                · exfalso
                  apply hchange
                  have hst : getA k ((step st (Event.msg ws2 (CFrame.decline cid))).1).rooms =
                      getA k st.rooms := by
                    simp only [step, handleMessage, hgg, hrr, hac2, if_pos hid,
                      clearActiveCall, stopRingResend]
                    exact getA_updA_ne hkk _ _
                  exact activeIdOf_eq (by rw [hst]; exact hr) hc
              · exfalso
                apply hchange
                simp only [step, handleMessage, hgg, hrr, hac2, if_neg hid]
                exact activeIdOf_eq hr hc
      | hangup cid =>
        cases hgg : truthy (getMeta st ws2).room with
        | none =>
          exfalso
          apply hchange
          simp only [step, handleMessage, hgg]
          exact activeIdOf_eq hr hc
        | some rk =>
          cases hrr : getA rk st.rooms with
          | none =>
            exfalso
            apply hchange
            simp only [step, handleMessage, hgg, hrr]
            exact activeIdOf_eq hr hc
          | some r2 =>
            cases hac2 : r2.activeCall with
            | none =>
              exfalso
              apply hchange
              simp only [step, handleMessage, hgg, hrr, hac2]
              exact activeIdOf_eq hr hc
            | some c0 =>
              by_cases hid : cid = some c0.id
              · by_cases hkk : rk = k
                · subst hkk
                  rw [hr] at hrr
                  cases hrr
                  rw [hac2] at hc
                  cases hc
                  refine ⟨"hangup", Or.inr (Or.inl rfl), ?_⟩
                  intro m2 hm2 _
                  have hout : (step st (Event.msg ws2 (CFrame.hangup cid))).2 =
                      r.members.map (fun x => (x, SFrame.endF c.id "hangup")) := by
                    simp only [step, handleMessage, hgg, hr, hac2, if_pos hid,
                      clearActiveCall, stopRingResend]
                  rw [hout]
                  exact List.mem_map_of_mem _ hm2
                · exfalso
                  apply hchange
                  have hst : getA k ((step st (Event.msg ws2 (CFrame.hangup cid))).1).rooms =
                      getA k st.rooms := by
                    simp only [step, handleMessage, hgg, hrr, hac2, if_pos hid,
                      clearActiveCall, stopRingResend]
                    exact getA_updA_ne hkk _ _
                  exact activeIdOf_eq (by rw [hst]; exact hr) hc
              · exfalso
                apply hchange
                simp only [step, handleMessage, hgg, hrr, hac2, if_neg hid]
                exact activeIdOf_eq hr hc
      | offer cid sdp =>
        exfalso
        apply hchange
        cases hgg : truthy (getMeta st ws2).room with
        | none =>
          simp only [step, handleMessage, hgg]
          exact activeIdOf_eq hr hc
        | some rk =>
          cases hrr : getA rk st.rooms with
          | none =>
            simp only [step, handleMessage, hgg, hrr]
            exact activeIdOf_eq hr hc
          | some r2 =>
            simp only [step, handleMessage, hgg, hrr]
            exact relayOrBuffer_activeId st rk r2 ws2 cid _ k r c hrr hr hc
      | answer cid sdp =>
        exfalso
        apply hchange
        cases hgg : truthy (getMeta st ws2).room with
        | none =>
          simp only [step, handleMessage, hgg]
          exact activeIdOf_eq hr hc
        | some rk =>
          cases hrr : getA rk st.rooms with
          | none =>
            simp only [step, handleMessage, hgg, hrr]
            exact activeIdOf_eq hr hc
          | some r2 =>
            simp only [step, handleMessage, hgg, hrr]
            exact relayOrBuffer_activeId st rk r2 ws2 cid _ k r c hrr hr hc
      | ice cid cand =>
        exfalso
        apply hchange
        cases hgg : truthy (getMeta st ws2).room with
        | none =>
          simp only [step, handleMessage, hgg]
          exact activeIdOf_eq hr hc
        | some rk =>
          cases hrr : getA rk st.rooms with
          | none =>
            simp only [step, handleMessage, hgg, hrr]
            exact activeIdOf_eq hr hc
          | some r2 =>
            simp only [step, handleMessage, hgg, hrr]
            exact relayOrBuffer_activeId st rk r2 ws2 cid _ k r c hrr hr hc
      | leaveRoom =>
        cases hgg : truthy (getMeta st ws2).room with
        | none =>
          exfalso
          apply hchange
          simp only [step, handleMessage, hgg]
          exact activeIdOf_eq hr hc
        | some rk =>
          cases hrr : getA rk st.rooms with
          | none =>
            exfalso
            apply hchange
            simp only [step, handleMessage, hgg, hrr]
            exact activeIdOf_eq hr hc
          | some r2 =>
            have hchange2 : activeIdOf (leaveRoom st ws2).1 k ≠ some c.id := by
              intro hh
              apply hchange
              simp only [step, handleMessage, hgg, hrr]
              exact hh
            refine ⟨"left", Or.inr (Or.inr rfl), ?_⟩
            intro m2 hm2 hne2
            have hout : (step st (Event.msg ws2 CFrame.leaveRoom)).2 = (leaveRoom st ws2).2 := by
              simp only [step, handleMessage, hgg, hrr]
            rw [hout]
            exact leaveRoom_vacate st ws2 k r c hcall hr hc hchange2 m2 hm2 hne2
      | unknownMsg =>
        exfalso
        apply hchange
        cases hgg : truthy (getMeta st ws2).room with
        | none =>
          simp only [step, handleMessage, hgg]
          exact activeIdOf_eq hr hc
        | some rk =>
          cases hrr : getA rk st.rooms with
          | none =>
            simp only [step, handleMessage, hgg, hrr]
            exact activeIdOf_eq hr hc
          | some r2 =>
            simp only [step, handleMessage, hgg, hrr]
            exact activeIdOf_eq hr hc

/-- C2 witness: an invite into the room with the started call is refused
with `busy{call-active}` and the state is unchanged. -/
theorem spec_c2_witness :
    step stConn (Event.msg 1 CFrame.invite) = (stConn, [(1, SFrame.busy "call-active")]) := by
  exact spec_c2_single_active_call.2.1 stConn 1 "r" roomConn (by decide) rfl rfl

end RoboMeet
